import Mathlib

/-!
Verification of the `ufgbatch` batch-conversion harness
(`tools/ufgbatch/ufgcommon/{util,process,diff,task}.py` and
`tools/ufgbatch/ufgtest.py`), shallowly embedded in Lean.

Strings are modelled as `List Char`, Python integers as `Int` (or `Nat`
where the source values are manifestly non-negative counts/indices).
External process behaviour (exit codes, captured stdout/stderr) and the
poll-based scheduling nondeterminism are passed in explicitly as model
inputs.
-/

namespace UFG

/-! ## `process.py`: `get_process_count` -/

/-- `get_process_count` from `ufgcommon/process.py` (lines 43-49).
`cpu_count` stands for the result of `multiprocessing.cpu_count()`,
passed explicitly.  All quantities are Python integers, modelled as `Int`. -/
def get_process_count (cpu_count recommended_count process_max num_tasks : Int) : Int :=
  let process_count := cpu_count
  let process_count := if recommended_count > 0 then recommended_count else process_count
  let process_max := if process_max > 0 then min process_max num_tasks else num_tasks
  max (min process_count process_max) 1

/-- The clamp function the spec describes: `clamp(x, lo, hi) = max(min(x, hi), lo)`. -/
def clamp (x lo hi : Int) : Int :=
  max (min x hi) lo

/-- C2 (counterexample): with `num_tasks = 0` the claimed bound
`1 ≤ result ≤ min(P_effective, max_effective, J)` fails:
`get_process_count(cpu=4, requested=10, process_max=64, num_tasks=0) = 1`,
but `min(10, 64, 0) = 0`. -/
theorem C2_bound_fails_at_zero_tasks :
    ¬ (1 ≤ get_process_count 4 10 64 0 ∧
       get_process_count 4 10 64 0 ≤ min 10 (min 64 0)) := by
  decide

/-- C2 (amended): for all inputs, `get_process_count` equals
`clamp(requested if requested > 0 else cpu_count, 1,
       min(process_max, num_tasks) if process_max > 0 else num_tasks)`;
moreover whenever the hardware cpu count is at least 1 and the job count `J`
is at least 1, the result lies between 1 and
`min(P_effective, max_effective, J)` (with `max_effective` omitted when
`process_max ≤ 0`); in particular
`get_process_count(10, 64, 3) = 3` and `get_process_count(10, 0, 3) = 3`. -/
theorem C2_process_count_clamped (cpu req pmax n : Int)
    (hcpu : 1 ≤ cpu) (hn : 1 ≤ n) :
    get_process_count cpu req pmax n =
      clamp (if req > 0 then req else cpu) 1
        (if pmax > 0 then min pmax n else n) ∧
    1 ≤ get_process_count cpu req pmax n ∧
    get_process_count cpu req pmax n ≤ (if req > 0 then req else cpu) ∧
    (pmax > 0 → get_process_count cpu req pmax n ≤ pmax) ∧
    get_process_count cpu req pmax n ≤ n ∧
    get_process_count cpu 10 64 3 = 3 ∧
    get_process_count cpu 10 0 3 = 3 := by
  refine ⟨?_, ?_, ?_, ?_, ?_, ?_, ?_⟩ <;>
      simp only [get_process_count, clamp, max_def, min_def] <;>
      omega

/-- C2 (witness): the amended theorem instantiated at
`cpu = 4, requested = 10, process_max = 64, num_tasks = 3`. -/
theorem C2_process_count_clamped_witness :
    get_process_count 4 10 64 3 =
      clamp (if (10 : Int) > 0 then 10 else 4) 1
        (if (64 : Int) > 0 then min 64 3 else 3) ∧
    1 ≤ get_process_count 4 10 64 3 ∧
    get_process_count 4 10 64 3 ≤ (if (10 : Int) > 0 then 10 else 4) ∧
    ((64 : Int) > 0 → get_process_count 4 10 64 3 ≤ 64) ∧
    get_process_count 4 10 64 3 ≤ 3 ∧
    get_process_count 4 10 64 3 = 3 ∧
    get_process_count 4 10 0 3 = 3 :=
  C2_process_count_clamped 4 10 64 3 (by decide) (by decide)

/-! ## `util.py`: severities and message-tag extraction -/

def SEVERITY_UNKNOWN : Int := -1
def SEVERITY_INFO : Int := 0
def SEVERITY_WARN : Int := 1
def SEVERITY_ERROR : Int := 2

/-- The regex character class `[A-Z0-9]`. -/
def isTagUpper (c : Char) : Bool :=
  ('A' ≤ c && c ≤ 'Z') || ('0' ≤ c && c ≤ '9')

/-- The regex character class `[A-Z0-9_]`. -/
def isTagCodeChar (c : Char) : Bool :=
  isTagUpper c || c = '_'

/-- Python regex `\s` (the ASCII whitespace characters; the tag lines this
is applied to are ASCII). -/
def isPySpace (c : Char) : Bool :=
  c = ' ' || c = '\t' || c = '\n' || c = '\x0b' || c = '\x0c' || c = '\r'

/-- Python `str.lower` (ASCII case folding, which is all that the
`error:`/`warning:` keyword search needs). -/
def asciiLower (l : List Char) : List Char :=
  l.map Char.toLower

/-- Python substring test `needle in haystack`. -/
def containsSub (needle : List Char) : List Char → Bool
  | [] => needle.isEmpty
  | c :: t => needle.isPrefixOf (c :: t) || containsSub needle t

/-- The three severity words that can appear inside a structured tag
(`(INFO|WARN|ERROR)` in `TAG_REGEX`). -/
inductive SevWord where
  | info
  | warn
  | error
deriving DecidableEq

def sevWordChars : SevWord → List Char
  | .info => ['I', 'N', 'F', 'O']
  | .warn => ['W', 'A', 'R', 'N']
  | .error => ['E', 'R', 'R', 'O', 'R']

/-- Severity constant selected from the matched severity word
(`get_message_tag`, lines 184-190 of util.py). -/
def sevValue : SevWord → Int
  | .info => SEVERITY_INFO
  | .warn => SEVERITY_WARN
  | .error => SEVERITY_ERROR

def infoChars : List Char := ['I', 'N', 'F', 'O']
def warnChars : List Char := ['W', 'A', 'R', 'N']
def errorChars : List Char := ['E', 'R', 'R', 'O', 'R']

/-- Match the `(INFO|WARN|ERROR)` alternation at the head of `l`,
returning the word and the rest of the input. -/
def matchSev (l : List Char) : Option (SevWord × List Char) :=
  if infoChars.isPrefixOf l then some (.info, l.drop 4)
  else if warnChars.isPrefixOf l then some (.warn, l.drop 4)
  else if errorChars.isPrefixOf l then some (.error, l.drop 5)
  else none

/-- Consume one expected character. -/
def expectChar (c : Char) : List Char → Option (List Char)
  | x :: t => if x = c then some t else none
  | [] => none

/-- Anchored match of `TAG_REGEX = \[[A-Z0-9]+_(INFO|WARN|ERROR)_[A-Z0-9_]+\]\s*$`
starting at the head of `l` and (because of the `$` anchor) consuming all of
`l`.  Returns the severity word (regex group 1); on success the whole of `l`
is the regex group 0.  The greedy character-class runs never need
backtracking: each must be followed by a character outside its class. -/
def parseTag (l : List Char) : Option SevWord :=
  (expectChar '[' l).bind fun r1 =>
  if (r1.takeWhile isTagUpper).isEmpty then none else
  (expectChar '_' (r1.dropWhile isTagUpper)).bind fun r2 =>
  (matchSev r2).bind fun wr =>
  (expectChar '_' wr.2).bind fun r4 =>
  if (r4.takeWhile isTagCodeChar).isEmpty then none else
  (expectChar ']' (r4.dropWhile isTagCodeChar)).bind fun ws =>
  if ws.all isPySpace then some wr.1 else none

/-- `TAG_REGEX.search(line)`: the leftmost (in fact unique) match of the
end-anchored tag pattern.  Returns `(group 0, group 1)`. -/
def tagSearch : List Char → Option (List Char × SevWord)
  | [] => none
  | c :: t =>
    match parseTag (c :: t) with
    | some w => some (c :: t, w)
    | none => tagSearch t

def errorColonChars : List Char := "error:".data
def warningColonChars : List Char := "warning:".data

/-- `get_message_tag` from util.py (lines 177-199).  Returns the severity
and the optional tag code.  When the regex matches, the source computes
`tag = found.group(0)` and `code = tag[1:len(tag)-1]`, i.e. the match text
minus its first and last characters. -/
def get_message_tag (line : List Char) : Int × Option (List Char) :=
  match tagSearch line with
  | some (tag, w) => (sevValue w, some ((tag.drop 1).dropLast))
  | none =>
    let line_lower := asciiLower line
    if containsSub errorColonChars line_lower then (SEVERITY_ERROR, none)
    else if containsSub warningColonChars line_lower then (SEVERITY_WARN, none)
    else (SEVERITY_UNKNOWN, none)

/-! ## `util.py`: line splitting, tag dictionaries, `TagTracker` -/

/-- A character at which Python `str.splitlines` breaks a line. -/
def isLineBreak (c : Char) : Bool :=
  c = '\n' || c = '\r' || c = '\x0b' || c = '\x0c' ||
  c = '\x1c' || c = '\x1d' || c = '\x1e' || c = '\x85' ||
  c = '\u2028' || c = '\u2029'

/-- Helper for `splitlines`: `acc` is the current line, reversed. -/
def splitlinesAux : List Char → List Char → List (List Char)
  | [], acc => if acc.isEmpty then [] else [acc.reverse]
  | '\r' :: '\n' :: t, acc => acc.reverse :: splitlinesAux t []
  | c :: t, acc =>
    if isLineBreak c then acc.reverse :: splitlinesAux t []
    else splitlinesAux t (c :: acc)

/-- Python `str.splitlines()`: `\r\n` counts as a single break, and a
trailing break does not produce a final empty line. -/
def splitlines (l : List Char) : List (List Char) :=
  splitlinesAux l []

abbrev Tag := List Char

/-- A Python dict from tag code to count, as an association list in
insertion order (Python dicts preserve insertion order; dict equality
ignores it, which `dictFind`-extensional equality models). -/
abbrev TagDict := List (Tag × Int)

/-- `add_in_dictionary` from util.py (lines 169-174): add to a number in a
dictionary, creating the entry if necessary. -/
def add_in_dictionary : TagDict → Tag → Int → TagDict
  | [], key, value => [(key, value)]
  | (k, v) :: t, key, value =>
    if k = key then (k, v + value) :: t
    else (k, v) :: add_in_dictionary t key value

/-- Python `d[key]` lookup (`none` when the key is absent). -/
def dictFind (key : Tag) : TagDict → Option Int
  | [] => none
  | (k, v) :: t => if k = key then some v else dictFind key t

/-- Sum of all counts stored in a dictionary. -/
def dictSum : TagDict → Int
  | [] => 0
  | (_, v) :: t => v + dictSum t

/-- The keys of a dictionary. -/
def dictKeys (d : TagDict) : List Tag :=
  d.map Prod.fst

/-- `TagTracker` state: one running total and one tag dictionary per
severity (`totals = [0]*3`, `tag_totals = [{}, {}, {}]`). -/
structure TagTracker where
  infoTotal : Int
  warnTotal : Int
  errorTotal : Int
  infoTags : TagDict
  warnTags : TagDict
  errorTags : TagDict
deriving DecidableEq

/-- `TagTracker.__init__`. -/
def TagTracker.empty : TagTracker :=
  ⟨0, 0, 0, [], [], []⟩

/-- `self.totals[severity] += v`.  The severity argument is always one of
0, 1, 2 at the call sites (`-1` is guarded out); Python's negative index
`-1` would denote the last entry, which the final `else` branch mirrors. -/
def TagTracker.addTotal (tr : TagTracker) (severity : Int) (v : Int) : TagTracker :=
  if severity = SEVERITY_INFO then { tr with infoTotal := tr.infoTotal + v }
  else if severity = SEVERITY_WARN then { tr with warnTotal := tr.warnTotal + v }
  else { tr with errorTotal := tr.errorTotal + v }

/-- `add_in_dictionary(self.tag_totals[severity], tag, v)`. -/
def TagTracker.addTag (tr : TagTracker) (severity : Int) (tag : Tag) (v : Int) : TagTracker :=
  if severity = SEVERITY_INFO then { tr with infoTags := add_in_dictionary tr.infoTags tag v }
  else if severity = SEVERITY_WARN then { tr with warnTags := add_in_dictionary tr.warnTags tag v }
  else { tr with errorTags := add_in_dictionary tr.errorTags tag v }

/-- One iteration of the loop in `TagTracker.add_from_output`. -/
def TagTracker.addLine (tr : TagTracker) (line : List Char) : TagTracker :=
  let st := get_message_tag line
  let tr :=
    match st.2 with
    | some tag => tr.addTag st.1 tag 1
    | none => tr
  if st.1 ≠ SEVERITY_UNKNOWN then tr.addTotal st.1 1 else tr

/-- `TagTracker.add_from_output` (util.py lines 263-270). -/
def TagTracker.add_from_output (tr : TagTracker) (output : List Char) : TagTracker :=
  (splitlines output).foldl TagTracker.addLine tr

/-- The per-severity dictionary merge performed by `add_from_tracker`:
`for tag, plus_total in tracker.tag_totals[severity].items():
   add_in_dictionary(self.tag_totals[severity], tag, plus_total)`. -/
def mergeDict (d e : TagDict) : TagDict :=
  e.foldl (fun acc kv => add_in_dictionary acc kv.1 kv.2) d

/-- `TagTracker.add_from_tracker` (util.py lines 256-261), unrolled over
the three severities. -/
def TagTracker.add_from_tracker (tr other : TagTracker) : TagTracker :=
  { infoTotal := tr.infoTotal + other.infoTotal
    warnTotal := tr.warnTotal + other.warnTotal
    errorTotal := tr.errorTotal + other.errorTotal
    infoTags := mergeDict tr.infoTags other.infoTags
    warnTags := mergeDict tr.warnTags other.warnTags
    errorTags := mergeDict tr.errorTags other.errorTags }

/-- `TagTracker.from_output`. -/
def TagTracker.from_output (output : List Char) : TagTracker :=
  TagTracker.empty.add_from_output output

/-! ## The structured-tag pattern, as the spec describes it -/

/-- Modelled on the spec's reading of `TAG_REGEX`: a nonempty
uppercase-alphanumeric category, a nonempty uppercase-alphanumeric/underscore
code, and trailing whitespace. -/
def TagParts (cat code ws : List Char) : Prop :=
  cat ≠ [] ∧ cat.all isTagUpper = true ∧ code ≠ [] ∧
  code.all isTagCodeChar = true ∧ ws.all isPySpace = true

/-- The full text matched by `TAG_REGEX` (regex group 0), assembled from its
components: `[CAT_SEV_CODE]` plus trailing whitespace. -/
def tagText (cat : List Char) (w : SevWord) (code ws : List Char) : List Char :=
  '[' :: (cat ++ '_' :: (sevWordChars w ++ '_' :: (code ++ ']' :: ws)))

instance (cat code ws : List Char) : Decidable (TagParts cat code ws) := by
  unfold TagParts
  infer_instance

/-- A line matches the structured tag pattern: some prefix followed by a
bracketed severity tag, anchored at the end of the line. -/
def SpecTagMatch (line : List Char) : Prop :=
  ∃ pre cat w code ws, TagParts cat code ws ∧ line = pre ++ tagText cat w code ws

/-! ## Lemmas about the tag matcher -/

theorem takeWhile_all_append {p : Char → Bool} :
    ∀ (l r : List Char), (∀ c ∈ l, p c = true) →
      (∀ c, r.head? = some c → p c = false) →
      (l ++ r).takeWhile p = l
  | [], [], _, _ => rfl
  | [], c :: _, _, hr => by
    simp [List.takeWhile_cons, hr c rfl]
  | a :: l, r, hl, hr => by
    have ha := hl a (List.mem_cons_self a l)
    simp only [List.cons_append, List.takeWhile_cons, ha, if_true, List.cons.injEq, true_and]
    exact takeWhile_all_append l r (fun c hc => hl c (List.mem_cons_of_mem _ hc)) hr

theorem dropWhile_all_append {p : Char → Bool} :
    ∀ (l r : List Char), (∀ c ∈ l, p c = true) →
      (∀ c, r.head? = some c → p c = false) →
      (l ++ r).dropWhile p = r
  | [], [], _, _ => rfl
  | [], c :: _, _, hr => by
    simp [List.dropWhile_cons, hr c rfl]
  | a :: l, r, hl, hr => by
    have ha := hl a (List.mem_cons_self a l)
    simp only [List.cons_append, List.dropWhile_cons, ha, if_true]
    exact dropWhile_all_append l r (fun c hc => hl c (List.mem_cons_of_mem _ hc)) hr

theorem isPrefixOf_append_self : ∀ (l r : List Char), l.isPrefixOf (l ++ r) = true
  | [], _ => by simp [List.isPrefixOf]
  | a :: l, r => by
    simp only [List.cons_append, List.isPrefixOf, beq_self_eq_true, Bool.true_and]
    exact isPrefixOf_append_self l r

theorem matchSev_sevWord (w : SevWord) (r : List Char) :
    matchSev (sevWordChars w ++ r) = some (w, r) := by
  cases w <;>
    simp [matchSev, sevWordChars, infoChars, warnChars, errorChars,
      List.isPrefixOf, isPrefixOf_append_self]

theorem matchSev_eq_some {l r : List Char} {w : SevWord}
    (h : matchSev l = some (w, r)) : l = sevWordChars w ++ r := by
  unfold matchSev at h
  split_ifs at h with h1 h2 h3
  · obtain ⟨t, ht⟩ := List.isPrefixOf_iff_prefix.mp h1
    subst ht
    simp only [Option.some.injEq, Prod.mk.injEq] at h
    obtain ⟨hw, hr⟩ := h
    subst hw; subst hr
    rfl
  · obtain ⟨t, ht⟩ := List.isPrefixOf_iff_prefix.mp h2
    subst ht
    simp only [Option.some.injEq, Prod.mk.injEq] at h
    obtain ⟨hw, hr⟩ := h
    subst hw; subst hr
    rfl
  · obtain ⟨t, ht⟩ := List.isPrefixOf_iff_prefix.mp h3
    subst ht
    simp only [Option.some.injEq, Prod.mk.injEq] at h
    obtain ⟨hw, hr⟩ := h
    subst hw; subst hr
    rfl

theorem expectChar_eq_some {c : Char} {l r : List Char} :
    expectChar c l = some r ↔ l = c :: r := by
  cases l with
  | nil => simp [expectChar]
  | cons x t =>
    by_cases hx : x = c <;> simp [expectChar, hx]

theorem parseTag_tagText {cat code ws : List Char} (w : SevWord)
    (h : TagParts cat code ws) : parseTag (tagText cat w code ws) = some w := by
  obtain ⟨hcat, hcatall, hcode, hcodeall, hws⟩ := h
  have hcatall' := List.all_eq_true.mp hcatall
  have hcodeall' := List.all_eq_true.mp hcodeall
  have hce : cat.isEmpty = false := by
    cases cat with
    | nil => exact absurd rfl hcat
    | cons a t => rfl
  have hcde : code.isEmpty = false := by
    cases code with
    | nil => exact absurd rfl hcode
    | cons a t => rfl
  have h1 : expectChar '[' (tagText cat w code ws) =
      some (cat ++ '_' :: (sevWordChars w ++ '_' :: (code ++ ']' :: ws))) := by
    simp [tagText, expectChar]
  have hhead1 : ∀ c : Char,
      (('_' :: (sevWordChars w ++ '_' :: (code ++ ']' :: ws))) : List Char).head? = some c →
      isTagUpper c = false := by
    intro c hc
    rw [List.head?_cons, Option.some.injEq] at hc
    subst hc; decide
  have h2 : (cat ++ '_' :: (sevWordChars w ++ '_' :: (code ++ ']' :: ws))).takeWhile
      isTagUpper = cat :=
    takeWhile_all_append _ _ hcatall' hhead1
  have h3 : (cat ++ '_' :: (sevWordChars w ++ '_' :: (code ++ ']' :: ws))).dropWhile
      isTagUpper = '_' :: (sevWordChars w ++ '_' :: (code ++ ']' :: ws)) :=
    dropWhile_all_append _ _ hcatall' hhead1
  have hhead2 : ∀ c : Char, ((']' :: ws) : List Char).head? = some c →
      isTagCodeChar c = false := by
    intro c hc
    rw [List.head?_cons, Option.some.injEq] at hc
    subst hc; decide
  have h4 : (code ++ ']' :: ws).takeWhile isTagCodeChar = code :=
    takeWhile_all_append _ _ hcodeall' hhead2
  have h5 : (code ++ ']' :: ws).dropWhile isTagCodeChar = ']' :: ws :=
    dropWhile_all_append _ _ hcodeall' hhead2
  unfold parseTag
  rw [h1]
  simp [h2, h3, hce, hcde, h4, h5, hws, expectChar, matchSev_sevWord]
  refine ⟨?_, ?_, List.all_eq_true.mp hws⟩
  · cases cat with
    | nil => exact absurd rfl hcat
    | cons a t => exact hcatall' a (List.mem_cons_self ..)
  · cases code with
    | nil => exact absurd rfl hcode
    | cons a t => exact hcodeall' a (List.mem_cons_self ..)

theorem parseTag_eq_some {l : List Char} {w : SevWord} (h : parseTag l = some w) :
    ∃ cat code ws, TagParts cat code ws ∧ l = tagText cat w code ws := by
  unfold parseTag at h
  obtain ⟨r1, hr1, h⟩ := Option.bind_eq_some.mp h
  rw [expectChar_eq_some] at hr1
  by_cases hce : (r1.takeWhile isTagUpper).isEmpty
  · rw [if_pos hce] at h
    exact absurd h (by simp)
  · rw [if_neg hce] at h
    obtain ⟨r2, hr2, h⟩ := Option.bind_eq_some.mp h
    rw [expectChar_eq_some] at hr2
    obtain ⟨wr, hwr, h⟩ := Option.bind_eq_some.mp h
    obtain ⟨r4, hr4, h⟩ := Option.bind_eq_some.mp h
    rw [expectChar_eq_some] at hr4
    by_cases hcde : (r4.takeWhile isTagCodeChar).isEmpty
    · rw [if_pos hcde] at h
      exact absurd h (by simp)
    · rw [if_neg hcde] at h
      obtain ⟨ws, hws, h⟩ := Option.bind_eq_some.mp h
      rw [expectChar_eq_some] at hws
      by_cases hall : ws.all isPySpace
      · rw [if_pos hall] at h
        obtain hw := Option.some.inj h
        subst hw
        refine ⟨r1.takeWhile isTagUpper, r4.takeWhile isTagCodeChar, ws,
          ⟨?_, ?_, ?_, ?_, hall⟩, ?_⟩
        · intro hnil; rw [hnil] at hce; exact hce rfl
        · exact List.all_eq_true.mpr fun c hc => List.mem_takeWhile_imp hc
        · intro hnil; rw [hnil] at hcde; exact hcde rfl
        · exact List.all_eq_true.mpr fun c hc => List.mem_takeWhile_imp hc
        · have e1 : r1.takeWhile isTagUpper ++ r1.dropWhile isTagUpper = r1 :=
            List.takeWhile_append_dropWhile ..
          have e4 : r4.takeWhile isTagCodeChar ++ r4.dropWhile isTagCodeChar = r4 :=
            List.takeWhile_append_dropWhile ..
          rw [matchSev_eq_some hwr] at hr2
          rw [hr1, tagText]
          conv_lhs => rw [← e1, hr2, hr4, ← e4, hws]
      · rw [if_neg hall] at h
        exact absurd h (by simp)

/-- The tail of a tag match contains no `[`, so a match can start at only
one position in a line. -/
theorem notMem_tagText_tail {cat code ws : List Char} (w : SevWord)
    (h : TagParts cat code ws) :
    '[' ∉ (cat ++ '_' :: (sevWordChars w ++ '_' :: (code ++ ']' :: ws))) := by
  obtain ⟨-, hcat, -, hcode, hws⟩ := h
  have hcat' := List.all_eq_true.mp hcat
  have hcode' := List.all_eq_true.mp hcode
  have hws' := List.all_eq_true.mp hws
  intro hmem
  simp only [List.mem_append, List.mem_cons] at hmem
  rcases hmem with h1 | h2 | h3 | h4 | h5 | h6 | h7
  · exact absurd (hcat' _ h1) (by decide)
  · exact absurd h2 (by decide)
  · cases w <;> simp [sevWordChars] at h3
  · exact absurd h4 (by decide)
  · exact absurd (hcode' _ h5) (by decide)
  · exact absurd h6 (by decide)
  · exact absurd (hws' _ h7) (by decide)

theorem tagSearch_cons (c : Char) (t : List Char) :
    tagSearch (c :: t) =
      match parseTag (c :: t) with
      | some w => some (c :: t, w)
      | none => tagSearch t := rfl

theorem tagSearch_append_tagText {cat code ws : List Char} {w : SevWord}
    (h : TagParts cat code ws) :
    ∀ pre, tagSearch (pre ++ tagText cat w code ws) =
      some (tagText cat w code ws, w) := by
  intro pre
  induction pre with
  | nil =>
    rw [List.nil_append]
    have hp : parseTag (tagText cat w code ws) = some w := parseTag_tagText w h
    rw [tagText] at hp ⊢
    rw [tagSearch_cons, hp]
  | cons c pre ih =>
    rw [List.cons_append, tagSearch_cons]
    cases hps : parseTag (c :: (pre ++ tagText cat w code ws)) with
    | none => exact ih
    | some w' =>
      exfalso
      obtain ⟨cat', code', ws', h', heq⟩ := parseTag_eq_some hps
      have heq' : (c :: (pre ++ tagText cat w code ws) : List Char) =
          '[' :: (cat' ++ '_' :: (sevWordChars w' ++ '_' :: (code' ++ ']' :: ws'))) := heq
      obtain ⟨-, htail⟩ := List.cons.inj heq'
      have hin : '[' ∈ pre ++ tagText cat w code ws := by
        apply List.mem_append_right
        rw [tagText]
        exact List.mem_cons_self ..
      rw [htail] at hin
      exact notMem_tagText_tail w' h' hin

theorem specTagMatch_of_tagSearch {line : List Char} {r : List Char × SevWord}
    (h : tagSearch line = some r) : SpecTagMatch line := by
  induction line with
  | nil => simp [tagSearch] at h
  | cons c t ih =>
    rw [tagSearch_cons] at h
    cases hps : parseTag (c :: t) with
    | some w =>
      obtain ⟨cat, code, ws, hp, heq⟩ := parseTag_eq_some hps
      exact ⟨[], cat, w, code, ws, hp, by rw [List.nil_append]; exact heq⟩
    | none =>
      rw [hps] at h
      obtain ⟨pre, cat, w, code, ws, hp, heq⟩ := ih h
      exact ⟨c :: pre, cat, w, code, ws, hp, by rw [List.cons_append, heq]⟩

theorem tagSearch_eq_none_of_not_spec {line : List Char}
    (h : ¬ SpecTagMatch line) : tagSearch line = none := by
  cases hts : tagSearch line with
  | none => rfl
  | some r => exact absurd (specTagMatch_of_tagSearch hts) h

/-- The tag code `tag[1:len(tag)-1]` computed from a match: the category,
severity and code of the tag, followed by whatever is left of `]` and the
trailing whitespace after dropping the final character. -/
theorem tagText_code (cat code ws : List Char) (w : SevWord) :
    ((tagText cat w code ws).drop 1).dropLast =
      (cat ++ '_' :: (sevWordChars w ++ '_' :: code)) ++ (']' :: ws).dropLast := by
  rw [tagText]
  simp only [List.drop_succ_cons, List.drop_zero]
  have h : cat ++ '_' :: (sevWordChars w ++ '_' :: (code ++ ']' :: ws)) =
      (cat ++ '_' :: (sevWordChars w ++ '_' :: code)) ++ ']' :: ws := by simp
  rw [h, List.dropLast_append_cons]

/-! ## C5: per-line severity/tag classification -/

def fooTagLine : List Char := "[FOO_ERROR_BAR123]".data
def fooTagLineSpace : List Char := "[FOO_ERROR_BAR123] ".data
def fooTagCode : List Char := "FOO_ERROR_BAR123".data
def warnExampleLine : List Char := "Warning: disk low".data

/-- C5 (counterexample): the line `[FOO_ERROR_BAR123] ` (with one trailing
space) matches the structured tag pattern — which per the claim includes
optional trailing whitespace — yet the recorded tag code is
`FOO_ERROR_BAR123]`, not the bracketed text minus brackets
`FOO_ERROR_BAR123`: the source takes `group(0)` (which includes the trailing
whitespace) and strips one character from each end, leaving the `]`. -/
theorem C5_trailing_whitespace_counterexample :
    get_message_tag fooTagLineSpace = (SEVERITY_ERROR, some (fooTagCode ++ [']'])) ∧
    get_message_tag fooTagLineSpace ≠ (SEVERITY_ERROR, some fooTagCode) := by
  decide

/-- C5 (amended): per-line classification.  A line that matches the
structured tag pattern (uppercase alphanumeric category, severity word
`INFO|WARN|ERROR`, uppercase alphanumeric/underscore code, optional trailing
whitespace, anchored at end of line) classifies by the embedded severity
word, and its tag code is the *matched text minus its first and last
characters* — which equals the bracketed text minus brackets exactly when
there is no trailing whitespace (clause 2).  Otherwise a line containing
`error:` case-insensitively is an error with no tag, else one containing
`warning:` is a warning with no tag, and a line matching neither is unknown
severity and contributes nothing in `add_from_output`. -/
theorem C5_line_classification :
    (∀ line pre cat w code ws, TagParts cat code ws →
      line = pre ++ tagText cat w code ws →
      get_message_tag line =
        (sevValue w,
         some ((cat ++ '_' :: (sevWordChars w ++ '_' :: code)) ++ (']' :: ws).dropLast))) ∧
    (∀ line pre cat w code, TagParts cat code [] →
      line = pre ++ tagText cat w code [] →
      get_message_tag line =
        (sevValue w, some (cat ++ '_' :: (sevWordChars w ++ '_' :: code)))) ∧
    (∀ line, ¬ SpecTagMatch line →
      containsSub errorColonChars (asciiLower line) = true →
      get_message_tag line = (SEVERITY_ERROR, none)) ∧
    (∀ line, ¬ SpecTagMatch line →
      containsSub errorColonChars (asciiLower line) = false →
      containsSub warningColonChars (asciiLower line) = true →
      get_message_tag line = (SEVERITY_WARN, none)) ∧
    (∀ line, ¬ SpecTagMatch line →
      containsSub errorColonChars (asciiLower line) = false →
      containsSub warningColonChars (asciiLower line) = false →
      get_message_tag line = (SEVERITY_UNKNOWN, none) ∧
      ∀ tr : TagTracker, tr.addLine line = tr) := by
  have main : ∀ line pre cat w code ws, TagParts cat code ws →
      line = pre ++ tagText cat w code ws →
      get_message_tag line =
        (sevValue w,
         some ((cat ++ '_' :: (sevWordChars w ++ '_' :: code)) ++ (']' :: ws).dropLast)) := by
    intro line pre cat w code ws hp heq
    subst heq
    rw [get_message_tag, tagSearch_append_tagText hp pre]
    show (sevValue w, some (((tagText cat w code ws).drop 1).dropLast)) = _
    rw [tagText_code]
  refine ⟨main, ?_, ?_, ?_, ?_⟩
  · intro line pre cat w code hp heq
    have h := main line pre cat w code [] hp heq
    rw [h]
    simp
  · intro line hns he
    rw [get_message_tag, tagSearch_eq_none_of_not_spec hns]
    simp only [he, if_true]
  · intro line hns he hw
    rw [get_message_tag, tagSearch_eq_none_of_not_spec hns]
    simp only [he, Bool.false_eq_true, if_false, hw, if_true]
  · intro line hns he hw
    have hu : get_message_tag line = (SEVERITY_UNKNOWN, none) := by
      rw [get_message_tag, tagSearch_eq_none_of_not_spec hns]
      simp only [he, hw, Bool.false_eq_true, if_false]
    refine ⟨hu, fun tr => ?_⟩
    rw [TagTracker.addLine, hu]
    simp

/-- C5 (witness): the claim's own examples, derived from
`C5_line_classification`: `[FOO_ERROR_BAR123]` is an error with tag code
`FOO_ERROR_BAR123`, and `Warning: disk low` is a warning with no tag. -/
theorem C5_line_classification_witness :
    get_message_tag fooTagLine = (SEVERITY_ERROR, some fooTagCode) ∧
    get_message_tag warnExampleLine = (SEVERITY_WARN, none) := by
  constructor
  · have h := C5_line_classification.2.1 fooTagLine [] ("FOO".data) .error ("BAR123".data)
      (by decide) (by decide)
    exact h.trans (by decide)
  · have hns : ¬ SpecTagMatch warnExampleLine := by
      intro hs
      obtain ⟨pre, cat, w, code, ws, hp, heq⟩ := hs
      have hsome := tagSearch_append_tagText (w := w) hp pre
      rw [← heq] at hsome
      have hnone : tagSearch warnExampleLine = none := by decide
      rw [hnone] at hsome
      exact Option.noConfusion hsome
    exact C5_line_classification.2.2.2.1 warnExampleLine hns (by decide) (by decide)

/-! ## Dictionary lemmas (for C6 and C10) -/

/-- Well-formedness of a Python dict model: keys are distinct. -/
def DictWF (d : TagDict) : Prop :=
  (dictKeys d).Nodup

theorem dictFind_add_in_dictionary (d : TagDict) (k k' : Tag) (v : Int) :
    dictFind k' (add_in_dictionary d k v) =
      if k' = k then some ((dictFind k d).getD 0 + v) else dictFind k' d := by
  induction d with
  | nil =>
    by_cases h : k' = k
    · simp [add_in_dictionary, dictFind, h]
    · simp [add_in_dictionary, dictFind, h, Ne.symm h]
  | cons e t ih =>
    obtain ⟨k0, v0⟩ := e
    by_cases h0 : k0 = k
    · subst h0
      by_cases h : k' = k0
      · simp [add_in_dictionary, dictFind, h]
      · simp [add_in_dictionary, dictFind, h, Ne.symm h]
    · by_cases h : k' = k0
      · subst h
        simp [add_in_dictionary, h0, dictFind, Ne.symm h0]
      · simp [add_in_dictionary, h0, dictFind, h, Ne.symm h, ih]

theorem dictKeys_add_in_dictionary (d : TagDict) (k : Tag) (v : Int) :
    dictKeys (add_in_dictionary d k v) =
      if k ∈ dictKeys d then dictKeys d else dictKeys d ++ [k] := by
  induction d with
  | nil => simp [add_in_dictionary, dictKeys]
  | cons e t ih =>
    obtain ⟨k0, v0⟩ := e
    by_cases h0 : k0 = k
    · subst h0
      simp [add_in_dictionary, dictKeys]
    · simp [add_in_dictionary, h0, dictKeys, Ne.symm h0] at ih ⊢
      rw [ih]
      by_cases hm : k ∈ List.map Prod.fst t <;> simp [hm, Ne.symm h0]

theorem dictWF_add_in_dictionary {d : TagDict} (h : DictWF d) (k : Tag) (v : Int) :
    DictWF (add_in_dictionary d k v) := by
  unfold DictWF
  rw [dictKeys_add_in_dictionary]
  by_cases hm : k ∈ dictKeys d
  · simpa [hm] using h
  · simp only [hm, if_false]
    rw [List.nodup_append]
    refine ⟨h, List.nodup_singleton k, ?_⟩
    intro a ha hk
    rw [List.mem_singleton] at hk
    subst hk
    exact hm ha

theorem dictFind_eq_none_of_not_mem {d : TagDict} {k : Tag}
    (h : k ∉ dictKeys d) : dictFind k d = none := by
  induction d with
  | nil => rfl
  | cons e t ih =>
    obtain ⟨k0, v0⟩ := e
    rw [show dictKeys ((k0, v0) :: t) = k0 :: dictKeys t from rfl] at h
    have h1 : ¬ k0 = k := by
      intro he
      subst he
      exact h (List.mem_cons_self ..)
    have h2 : k ∉ dictKeys t := fun hm => h (List.mem_cons_of_mem _ hm)
    show (if k0 = k then some v0 else dictFind k t) = none
    rw [if_neg h1]
    exact ih h2

/-- How two optional counts combine under `add_in_dictionary`-based merge:
keep the left value if the right key is absent, else add (absent = 0). -/
def combineCount : Option Int → Option Int → Option Int
  | a, none => a
  | a, some v => some (a.getD 0 + v)

theorem dictFind_mergeDict {e : TagDict} (d : TagDict) (k : Tag) (he : DictWF e) :
    dictFind k (mergeDict d e) = combineCount (dictFind k d) (dictFind k e) := by
  induction e generalizing d with
  | nil => rfl
  | cons e0 t ih =>
    obtain ⟨k0, v0⟩ := e0
    unfold DictWF at he
    rw [show dictKeys ((k0, v0) :: t) = k0 :: dictKeys t from rfl,
      List.nodup_cons] at he
    obtain ⟨hk0, hwf⟩ := he
    show dictFind k (mergeDict (add_in_dictionary d k0 v0) t) = _
    rw [ih _ hwf, dictFind_add_in_dictionary]
    by_cases h : k = k0
    · subst h
      rw [dictFind_eq_none_of_not_mem hk0]
      simp [dictFind, combineCount]
    · show _ = combineCount (dictFind k d) (if k0 = k then some v0 else dictFind k t)
      rw [if_neg h, if_neg (Ne.symm h)]

theorem dictWF_mergeDict {d e : TagDict} (hd : DictWF d) (he : DictWF e) :
    DictWF (mergeDict d e) := by
  induction e generalizing d with
  | nil => exact hd
  | cons e0 t ih =>
    obtain ⟨k0, v0⟩ := e0
    unfold DictWF at he
    rw [show dictKeys ((k0, v0) :: t) = k0 :: dictKeys t from rfl,
      List.nodup_cons] at he
    exact ih (dictWF_add_in_dictionary hd k0 v0) he.2

theorem combineCount_assoc (a b c : Option Int) :
    combineCount (combineCount a b) c = combineCount a (combineCount b c) := by
  cases b <;> cases c <;> cases a <;> simp [combineCount] <;> ring

theorem combineCount_right_comm (a b c : Option Int) :
    combineCount (combineCount a b) c = combineCount (combineCount a c) b := by
  cases b <;> cases c <;> cases a <;> simp [combineCount] <;> ring

/-! ## Tracker well-formedness and C6: merge is commutative/associative -/

/-- All three tag dictionaries of a tracker have distinct keys (true of every
tracker the source ever builds). -/
def TagTracker.WF (tr : TagTracker) : Prop :=
  DictWF tr.infoTags ∧ DictWF tr.warnTags ∧ DictWF tr.errorTags

theorem TagTracker.wf_empty : TagTracker.empty.WF :=
  ⟨List.nodup_nil, List.nodup_nil, List.nodup_nil⟩

theorem TagTracker.wf_addTag {tr : TagTracker} (h : tr.WF) (sev : Int) (tag : Tag)
    (v : Int) : (tr.addTag sev tag v).WF := by
  obtain ⟨h1, h2, h3⟩ := h
  unfold TagTracker.addTag
  split_ifs
  · exact ⟨dictWF_add_in_dictionary h1 tag v, h2, h3⟩
  · exact ⟨h1, dictWF_add_in_dictionary h2 tag v, h3⟩
  · exact ⟨h1, h2, dictWF_add_in_dictionary h3 tag v⟩

theorem TagTracker.wf_addTotal {tr : TagTracker} (h : tr.WF) (sev v : Int) :
    (tr.addTotal sev v).WF := by
  unfold TagTracker.addTotal
  split_ifs <;> exact h

theorem TagTracker.wf_addLine {tr : TagTracker} (h : tr.WF) (line : List Char) :
    (tr.addLine line).WF := by
  rcases hgm : get_message_tag line with ⟨sev, tag⟩
  simp only [TagTracker.addLine, hgm]
  cases tag with
  | none =>
    split_ifs
    · exact TagTracker.wf_addTotal h sev 1
    · exact h
  | some t =>
    split_ifs
    · exact TagTracker.wf_addTotal (TagTracker.wf_addTag h sev t 1) sev 1
    · exact TagTracker.wf_addTag h sev t 1

theorem TagTracker.wf_foldl_addLine :
    ∀ (lines : List (List Char)) {tr : TagTracker}, tr.WF →
      (lines.foldl TagTracker.addLine tr).WF
  | [], _, h => h
  | line :: rest, tr, h =>
    TagTracker.wf_foldl_addLine rest (TagTracker.wf_addLine h line)

theorem TagTracker.wf_add_from_output {tr : TagTracker} (h : tr.WF)
    (out : List Char) : (tr.add_from_output out).WF :=
  TagTracker.wf_foldl_addLine (splitlines out) h

theorem TagTracker.wf_from_output (out : List Char) :
    (TagTracker.from_output out).WF :=
  TagTracker.wf_add_from_output TagTracker.wf_empty out

theorem TagTracker.wf_add_from_tracker {tr other : TagTracker} (h : tr.WF)
    (h' : other.WF) : (tr.add_from_tracker other).WF :=
  ⟨dictWF_mergeDict h.1 h'.1, dictWF_mergeDict h.2.1 h'.2.1,
   dictWF_mergeDict h.2.2 h'.2.2⟩

/-- Python `==` on two trackers: equal totals lists and equal (order
insensitive) tag dictionaries per severity. -/
def TagTracker.pyEq (a b : TagTracker) : Prop :=
  a.infoTotal = b.infoTotal ∧ a.warnTotal = b.warnTotal ∧
  a.errorTotal = b.errorTotal ∧
  (∀ k, dictFind k a.infoTags = dictFind k b.infoTags) ∧
  (∀ k, dictFind k a.warnTags = dictFind k b.warnTags) ∧
  (∀ k, dictFind k a.errorTags = dictFind k b.errorTags)

theorem pyEq_merge_assoc {A B C : TagTracker} (hB : B.WF) (hC : C.WF) :
    ((A.add_from_tracker B).add_from_tracker C).pyEq
      (A.add_from_tracker (B.add_from_tracker C)) := by
  simp only [TagTracker.pyEq, TagTracker.add_from_tracker]
  refine ⟨by ring, by ring, by ring, ?_, ?_, ?_⟩
  · intro k
    rw [dictFind_mergeDict _ k hC.1, dictFind_mergeDict _ k hB.1,
      dictFind_mergeDict _ k (dictWF_mergeDict hB.1 hC.1),
      dictFind_mergeDict _ k hC.1, combineCount_assoc]
  · intro k
    rw [dictFind_mergeDict _ k hC.2.1, dictFind_mergeDict _ k hB.2.1,
      dictFind_mergeDict _ k (dictWF_mergeDict hB.2.1 hC.2.1),
      dictFind_mergeDict _ k hC.2.1, combineCount_assoc]
  · intro k
    rw [dictFind_mergeDict _ k hC.2.2, dictFind_mergeDict _ k hB.2.2,
      dictFind_mergeDict _ k (dictWF_mergeDict hB.2.2 hC.2.2),
      dictFind_mergeDict _ k hC.2.2, combineCount_assoc]

theorem pyEq_merge_right_comm {A B C : TagTracker} (hB : B.WF) (hC : C.WF) :
    ((A.add_from_tracker B).add_from_tracker C).pyEq
      ((A.add_from_tracker C).add_from_tracker B) := by
  simp only [TagTracker.pyEq, TagTracker.add_from_tracker]
  refine ⟨by ring, by ring, by ring, ?_, ?_, ?_⟩
  · intro k
    rw [dictFind_mergeDict _ k hC.1, dictFind_mergeDict _ k hB.1,
      dictFind_mergeDict _ k hB.1, dictFind_mergeDict _ k hC.1,
      combineCount_right_comm]
  · intro k
    rw [dictFind_mergeDict _ k hC.2.1, dictFind_mergeDict _ k hB.2.1,
      dictFind_mergeDict _ k hB.2.1, dictFind_mergeDict _ k hC.2.1,
      combineCount_right_comm]
  · intro k
    rw [dictFind_mergeDict _ k hC.2.2, dictFind_mergeDict _ k hB.2.2,
      dictFind_mergeDict _ k hB.2.2, dictFind_mergeDict _ k hC.2.2,
      combineCount_right_comm]

/-- C6: `add_from_tracker` is commutative and associative.  For any three
trackers `A`, `B`, `C` built from arbitrary output texts,
`(A merge B) merge C`, `A merge (B merge C)` and `(A merge C) merge B` all
have equal per-severity totals and equal per-severity tag-code-to-count
mappings (Python `==` on the dictionaries). -/
theorem C6_merge_assoc_comm (oa ob oc : List Char) :
    TagTracker.pyEq
      (((TagTracker.from_output oa).add_from_tracker
          (TagTracker.from_output ob)).add_from_tracker
        (TagTracker.from_output oc))
      ((TagTracker.from_output oa).add_from_tracker
        ((TagTracker.from_output ob).add_from_tracker
          (TagTracker.from_output oc))) ∧
    TagTracker.pyEq
      (((TagTracker.from_output oa).add_from_tracker
          (TagTracker.from_output ob)).add_from_tracker
        (TagTracker.from_output oc))
      (((TagTracker.from_output oa).add_from_tracker
          (TagTracker.from_output oc)).add_from_tracker
        (TagTracker.from_output ob)) :=
  ⟨pyEq_merge_assoc (TagTracker.wf_from_output ob) (TagTracker.wf_from_output oc),
   pyEq_merge_right_comm (TagTracker.wf_from_output ob) (TagTracker.wf_from_output oc)⟩

/-! ## C10: totals dominate per-tag sums -/

theorem dictSum_add_in_dictionary (d : TagDict) (k : Tag) (v : Int) :
    dictSum (add_in_dictionary d k v) = dictSum d + v := by
  induction d with
  | nil => simp [add_in_dictionary, dictSum]
  | cons e t ih =>
    obtain ⟨k0, v0⟩ := e
    by_cases h : k0 = k
    · simp only [add_in_dictionary, h, if_pos]
      show v0 + v + dictSum t = v0 + dictSum t + v
      ring
    · simp only [add_in_dictionary, h, if_false]
      show v0 + dictSum (add_in_dictionary t k v) = v0 + dictSum t + v
      rw [ih]
      ring

theorem dictSum_mergeDict (d e : TagDict) :
    dictSum (mergeDict d e) = dictSum d + dictSum e := by
  induction e generalizing d with
  | nil => show dictSum d = dictSum d + 0; ring
  | cons e0 t ih =>
    obtain ⟨k0, v0⟩ := e0
    show dictSum (mergeDict (add_in_dictionary d k0 v0) t) = dictSum d + (v0 + dictSum t)
    rw [ih, dictSum_add_in_dictionary]
    ring

theorem nonneg_add_in_dictionary {d : TagDict} {k : Tag} {v : Int}
    (hd : ∀ e ∈ d, 0 ≤ e.2) (hv : 0 ≤ v) :
    ∀ e ∈ add_in_dictionary d k v, 0 ≤ e.2 := by
  induction d with
  | nil =>
    intro e he
    simp [add_in_dictionary] at he
    simp [he, hv]
  | cons e0 t ih =>
    obtain ⟨k0, v0⟩ := e0
    intro e he
    by_cases h : k0 = k
    · simp only [add_in_dictionary, h, if_pos, List.mem_cons] at he
      rcases he with he | he
      · have h00 : (0 : Int) ≤ v0 := hd (k0, v0) (List.mem_cons_self ..)
        simp [he]
        exact add_nonneg h00 hv
      · exact hd e (List.mem_cons_of_mem _ he)
    · simp only [add_in_dictionary, h, if_false, List.mem_cons] at he
      rcases he with he | he
      · exact he ▸ hd (k0, v0) (List.mem_cons_self ..)
      · exact ih (fun x hx => hd x (List.mem_cons_of_mem _ hx)) e he

theorem nonneg_mergeDict {d e : TagDict} (hd : ∀ x ∈ d, 0 ≤ x.2)
    (he : ∀ x ∈ e, 0 ≤ x.2) : ∀ x ∈ mergeDict d e, 0 ≤ x.2 := by
  induction e generalizing d with
  | nil => exact hd
  | cons e0 t ih =>
    obtain ⟨k0, v0⟩ := e0
    show ∀ x ∈ mergeDict (add_in_dictionary d k0 v0) t, 0 ≤ x.2
    have hv0 : (0 : Int) ≤ v0 := he (k0, v0) (List.mem_cons_self ..)
    exact ih (nonneg_add_in_dictionary hd hv0)
      (fun x hx => he x (List.mem_cons_of_mem _ hx))

/-- The C10 invariant: per severity, the running total dominates the sum of
all per-tag counts, and every count is non-negative. -/
def TagTracker.Inv (tr : TagTracker) : Prop :=
  dictSum tr.infoTags ≤ tr.infoTotal ∧
  dictSum tr.warnTags ≤ tr.warnTotal ∧
  dictSum tr.errorTags ≤ tr.errorTotal ∧
  (∀ e ∈ tr.infoTags, 0 ≤ e.2) ∧
  (∀ e ∈ tr.warnTags, 0 ≤ e.2) ∧
  (∀ e ∈ tr.errorTags, 0 ≤ e.2) ∧
  0 ≤ tr.infoTotal ∧ 0 ≤ tr.warnTotal ∧ 0 ≤ tr.errorTotal

/-- Trackers reachable from the empty tracker by `add_from_output` and
`add_from_tracker` (with a reachable argument). -/
inductive TagTracker.Reachable : TagTracker → Prop
  | empty : TagTracker.Reachable TagTracker.empty
  | add_output {tr : TagTracker} (out : List Char) :
      TagTracker.Reachable tr → TagTracker.Reachable (tr.add_from_output out)
  | add_tracker {tr other : TagTracker} :
      TagTracker.Reachable tr → TagTracker.Reachable other →
      TagTracker.Reachable (tr.add_from_tracker other)

theorem TagTracker.inv_empty : TagTracker.empty.Inv := by
  refine ⟨?_, ?_, ?_, ?_, ?_, ?_, ?_, ?_, ?_⟩ <;> simp [TagTracker.empty, dictSum]

/-- If the line carries a tag then its severity is one of the three real
severities (never `SEVERITY_UNKNOWN`). -/
theorem get_message_tag_sev_of_tag {line : List Char} {sev : Int} {t : Tag}
    (h : get_message_tag line = (sev, some t)) :
    sev = SEVERITY_INFO ∨ sev = SEVERITY_WARN ∨ sev = SEVERITY_ERROR := by
  rw [get_message_tag] at h
  cases hts : tagSearch line with
  | some r =>
    obtain ⟨g0, w⟩ := r
    rw [hts] at h
    have hsev : sevValue w = sev := congrArg Prod.fst h
    cases w <;> simp [sevValue] at hsev <;> simp [← hsev]
  | none =>
    rw [hts] at h
    have h2 := congrArg Prod.snd h
    dsimp only at h2
    split_ifs at h2 <;> exact absurd h2 (by simp)

theorem TagTracker.inv_addTotal {tr : TagTracker} (h : tr.Inv) (sev : Int) :
    (tr.addTotal sev 1).Inv := by
  obtain ⟨h1, h2, h3, h4, h5, h6, h7, h8, h9⟩ := h
  unfold TagTracker.addTotal TagTracker.Inv
  split_ifs <;> dsimp only <;>
    exact ⟨by omega, by omega, by omega, h4, h5, h6, by omega, by omega, by omega⟩

theorem TagTracker.inv_addTag_addTotal {tr : TagTracker} (h : tr.Inv)
    (sev : Int) (t : Tag) : ((tr.addTag sev t 1).addTotal sev 1).Inv := by
  obtain ⟨h1, h2, h3, h4, h5, h6, h7, h8, h9⟩ := h
  unfold TagTracker.addTag TagTracker.addTotal TagTracker.Inv
  split_ifs <;> dsimp only
  · exact ⟨by rw [dictSum_add_in_dictionary]; omega, h2, h3,
      nonneg_add_in_dictionary h4 (by norm_num), h5, h6, by omega, h8, h9⟩
  · exact ⟨h1, by rw [dictSum_add_in_dictionary]; omega, h3,
      h4, nonneg_add_in_dictionary h5 (by norm_num), h6, h7, by omega, h9⟩
  · exact ⟨h1, h2, by rw [dictSum_add_in_dictionary]; omega,
      h4, h5, nonneg_add_in_dictionary h6 (by norm_num), h7, h8, by omega⟩

theorem TagTracker.inv_addLine {tr : TagTracker} (h : tr.Inv) (line : List Char) :
    (tr.addLine line).Inv := by
  rcases hgm : get_message_tag line with ⟨sev, tag⟩
  simp only [TagTracker.addLine, hgm]
  cases tag with
  | none =>
    split_ifs
    · exact TagTracker.inv_addTotal h sev
    · exact h
  | some t =>
    have hsev := get_message_tag_sev_of_tag hgm
    have hne : sev ≠ SEVERITY_UNKNOWN := by
      rcases hsev with hs | hs | hs <;> rw [hs] <;> decide
    rw [if_pos hne]
    exact TagTracker.inv_addTag_addTotal h sev t

theorem TagTracker.inv_foldl_addLine :
    ∀ (lines : List (List Char)) {tr : TagTracker}, tr.Inv →
      (lines.foldl TagTracker.addLine tr).Inv
  | [], _, h => h
  | line :: rest, _, h =>
    TagTracker.inv_foldl_addLine rest (TagTracker.inv_addLine h line)

theorem TagTracker.inv_add_from_output {tr : TagTracker} (h : tr.Inv)
    (out : List Char) : (tr.add_from_output out).Inv :=
  TagTracker.inv_foldl_addLine (splitlines out) h

theorem TagTracker.inv_add_from_tracker {tr other : TagTracker} (h : tr.Inv)
    (h' : other.Inv) : (tr.add_from_tracker other).Inv := by
  obtain ⟨h1, h2, h3, h4, h5, h6, h7, h8, h9⟩ := h
  obtain ⟨g1, g2, g3, g4, g5, g6, g7, g8, g9⟩ := h'
  unfold TagTracker.add_from_tracker TagTracker.Inv
  dsimp only
  exact ⟨by rw [dictSum_mergeDict]; omega, by rw [dictSum_mergeDict]; omega,
    by rw [dictSum_mergeDict]; omega,
    nonneg_mergeDict h4 g4, nonneg_mergeDict h5 g5, nonneg_mergeDict h6 g6,
    by omega, by omega, by omega⟩

/-- C10: every tracker reachable from the empty tracker by any sequence of
`add_from_output` and `add_from_tracker` operations satisfies, for every
severity, `totals[severity] ≥` the sum of all counts in
`tag_totals[severity]`, and all counts and totals are non-negative. -/
theorem C10_tracker_invariant {tr : TagTracker} (h : tr.Reachable) : tr.Inv := by
  induction h with
  | empty => exact TagTracker.inv_empty
  | add_output out _ ih => exact TagTracker.inv_add_from_output ih out
  | add_tracker _ _ ih1 ih2 => exact TagTracker.inv_add_from_tracker ih1 ih2

def sampleOutput : List Char := "error: boom\n[FOO_ERROR_BAR123]\nWarning: x\nplain".data

/-- C10 (witness): the invariant holds of the tracker built from a sample
output text. -/
theorem C10_tracker_invariant_witness :
    (TagTracker.empty.add_from_output sampleOutput).Inv :=
  C10_tracker_invariant
    (TagTracker.Reachable.add_output sampleOutput TagTracker.Reachable.empty)

/-! ## `util.py`: `uhex32`; `process.py`: output/command formatting -/

/-- One hex digit as produced by Python `%X` (uppercase). -/
def hexDigit (n : Nat) : Char :=
  if n < 10 then Char.ofNat ('0'.toNat + n) else Char.ofNat ('A'.toNat + (n - 10))

/-- Digit accumulation for `natHex`; the fuel argument (always at least the
number of digits) keeps the recursion structural. -/
def natHexAux : Nat → Nat → List Char
  | 0, _ => []
  | fuel + 1, n =>
    if n < 16 then [hexDigit n]
    else natHexAux fuel (n / 16) ++ [hexDigit (n % 16)]

/-- Python `'%X' % n` for a non-negative integer. -/
def natHex (n : Nat) : List Char :=
  natHexAux (n + 1) n

/-- Python `value & 0xffffffff` (arbitrary-precision two's complement
semantics: the result is `value mod 2^32`, always non-negative). -/
def pyMask32 (value : Int) : Nat :=
  (value % 4294967296).toNat

/-- `uhex32` from util.py (lines 120-123):
`('00000000%X' % (value & 0xffffffff))[-8:]`. -/
def uhex32 (value : Int) : List Char :=
  let s := List.replicate 8 '0' ++ natHex (pyMask32 value)
  s.drop (s.length - 8)

/-- Digit accumulation for `natDec`, fuelled like `natHexAux`. -/
def natDecAux : Nat → Nat → List Char
  | 0, _ => []
  | fuel + 1, n =>
    if n < 10 then [Char.ofNat ('0'.toNat + n)]
    else natDecAux fuel (n / 10) ++ [Char.ofNat ('0'.toNat + n % 10)]

/-- Python `'%s' % n` for a non-negative integer (decimal digits). -/
def natDec (n : Nat) : List Char :=
  natDecAux (n + 1) n

/-- Python `'%s' % code` for an integer. -/
def intDec (i : Int) : List Char :=
  if i < 0 then '-' :: natDec (-i).toNat else natDec i.toNat

/-- `.replace('\r', '')`. -/
def stripCR (l : List Char) : List Char :=
  l.filter (fun c => !(c = '\r'))

/-- `.rstrip('\n\r')`. -/
def rstripNewlines (l : List Char) : List Char :=
  (l.reverse.dropWhile (fun c => c = '\n' || c = '\r')).reverse

/-- `get_process_output` from process.py (lines 263-270): decoded stdout
then stderr, carriage returns removed, trailing newlines trimmed. -/
def get_process_output (cmd_stdout cmd_stderr : List Char) : List Char :=
  rstripNewlines (stripCR cmd_stdout ++ stripCR cmd_stderr)

/-- Quoting of a single argument in `get_process_command`: arguments
containing a space are wrapped in double quotes. -/
def quoteArg (arg : List Char) : List Char :=
  if ' ' ∈ arg then '"' :: (arg ++ ['"']) else arg

/-- The loop of `get_process_command`, carrying `arg_index`. -/
def gpcAux : Nat → List (List Char) → List Char
  | _, [] => []
  | i, arg :: rest => (if i > 0 then [' '] else []) ++ quoteArg arg ++ gpcAux (i + 1) rest

/-- `get_process_command` from process.py (lines 117-128). -/
def get_process_command (cmd_args : List (List Char)) : List Char :=
  gpcAux 0 cmd_args

/-! ## `task.py`: `Task`; `process.py`: task finalization -/

/-- `Task` from task.py: the immutable job description plus the mutable
outcome fields (`success = False`, `command = None`, `output = None` until
the scheduler finalizes the task). -/
structure Task where
  name : List Char
  src : List Char
  dst : List Char
  args : List (List Char)
  csv_index : Nat
  sectionLabel : List Char
  success : Bool
  command : Option (List Char)
  output : Option (List Char)
deriving DecidableEq

/-- `Task.__init__`. -/
def mkTask (name src dst : List Char) (args : List (List Char)) (csv_index : Nat)
    (sectionLabel : List Char) : Task :=
  ⟨name, src, dst, args, csv_index, sectionLabel, false, none, none⟩

instance : Inhabited Task := ⟨mkTask [] [] [] [] 0 []⟩

/-- The observable behaviour of one external converter process: its exit
code and captured stdout/stderr. -/
structure ProcResult where
  code : Int
  stdout : List Char
  stderr : List Char
deriving DecidableEq

instance : Inhabited ProcResult := ⟨⟨0, [], []⟩⟩

def errorWordChars : List Char := "error".data

/-- `'error' in task.output.lower()`. -/
def hasErrorWord (output : List Char) : Bool :=
  containsSub errorWordChars (asciiLower output)

def exitCodePrefix : List Char := "\nERROR: Exit code ".data
def exitCodeMid : List Char := " (0x".data
def exitCodeSuffix : List Char := ").".data
def accessViolationChars : List Char := " [Access Violation]".data

/-- The diagnostic text appended on a silent nonzero exit:
`'\nERROR: Exit code %s (0x%s).' % (code, uhex32(code))`, plus
`' [Access Violation]'` when `(code & 0xffffffff) == 0xc0000005`. -/
def synthesizedDiagnostic (code : Int) : List Char :=
  exitCodePrefix ++ intDec code ++ exitCodeMid ++ uhex32 code ++ exitCodeSuffix ++
    (if pyMask32 code = 0xc0000005 then accessViolationChars else [])

/-- `wait_and_update_task` from process.py (lines 131-150), minus the
console echo: set `success` on exit code 0, record the command text and the
captured output, and on a failure whose output has no `error` text append
the synthesized exit-code diagnostic. -/
def wait_and_update_task (res : ProcResult) (cmd_args : List (List Char))
    (task : Task) : Task :=
  let task := if res.code = 0 then { task with success := true } else task
  let task := { task with
    command := some (get_process_command cmd_args),
    output := some (get_process_output res.stdout res.stderr) }
  let out := get_process_output res.stdout res.stderr
  if task.success = false ∧ hasErrorWord out = false then
    { task with output := some (out ++ synthesizedDiagnostic res.code) }
  else task

/-! ## `process.py`: the pool scheduler (`run_tasks`) -/

/-- Per-run configuration shared by every task's command line. -/
structure RunConfig where
  exe : List Char
  exe_args : List (List Char)
  ext : List Char
  in_path : List Char
  out_path : List Char

/-- `join_path` (util.py lines 110-117) for two components. -/
def join_path2 (p q : List Char) : List Char :=
  (if p.getLast? = some '/' then p else p ++ ['/']) ++ q

/-- `join_path` for three components. -/
def join_path3 (p q r : List Char) : List Char :=
  join_path2 (join_path2 p q) r

def nousageChars : List Char := "--nousage".data

/-- The command argument list built for one task (process.py lines 213-219):
`[exe, task_in_path, task_out_path] + exe_args + task.args`.  The spawned
process additionally receives `--nousage`; `task.command` is recorded from
this list without it. -/
def task_cmd_args (cfg : RunConfig) (task : Task) : List (List Char) :=
  ([cfg.exe, join_path2 cfg.in_path task.src,
    join_path3 cfg.out_path task.dst (task.name ++ cfg.ext)] ++ cfg.exe_args) ++
    task.args

/-- A pool slot: empty, or the original task index, the task, its process's
eventual result, and the recorded `cmd_args`. -/
abbrev Slots := List (Option (Nat × Task × ProcResult × List (List Char)))

/-- `wait_for_available_process` (process.py lines 153-168): scan the slots
in index order for one that is empty or whose process has exited; `exited`
is the poll oracle saying which processes have exited at this point.  The
source loops (sleeping 10ms) until some slot qualifies; since finalization
(`process.communicate()`) blocks until the process exits anyway, the
eventual choice when the oracle marks nothing exited is modelled as slot 0. -/
def wait_for_available_process (exited : Nat → Bool) (slots : Slots) : Nat :=
  match (List.range slots.length).find?
      (fun i => (slots.getD i none).isNone || exited i) with
  | some j => j
  | none => 0

/-- `wait_and_update_task` applied to a slot's occupant (a no-op for an
empty slot), appending the finalized task to the event list. -/
def finalize_slot (s : Option (Nat × Task × ProcResult × List (List Char)))
    (done : List (Nat × Task)) : List (Nat × Task) :=
  match s with
  | none => done
  | some (i, t, res, ca) => done ++ [(i, wait_and_update_task res ca t)]

/-- The admission loop of `run_tasks` (process.py lines 208-224): for each
task, wait for an available slot, finalize its previous occupant, and spawn
the task's process (recording `cmd_args`; the spawned argument list is
`cmd_args ++ [--nousage]`).  `sched k` is the poll oracle for step `k`. -/
def run_loop (cfg : RunConfig) (sched : Nat → Nat → Bool) :
    Nat → List (Nat × Task × ProcResult) → Slots → List (Nat × Task) →
    Slots × List (Nat × Task)
  | _, [], slots, done => (slots, done)
  | k, (i, t, res) :: rest, slots, done =>
    let j := wait_for_available_process (sched k) slots
    let done := finalize_slot (slots.getD j none) done
    let slots := slots.set j (some (i, t, res, task_cmd_args cfg t))
    run_loop cfg sched (k + 1) rest slots done

/-- `wait_for_all_processes` (process.py lines 171-174): finalize every
remaining slot in index order. -/
def drain_slots (slots : Slots) (done : List (Nat × Task)) : List (Nat × Task) :=
  slots.foldl (fun acc s => finalize_slot s acc) done

/-- The full scheduling run: admit every entry (a task paired with its
process's behaviour), then drain the remaining slots.  Returns the
finalization events `(original index, finalized task)` in finalization
order. -/
def run_tasks_events (cfg : RunConfig) (process_count : Nat)
    (entries : List (Task × ProcResult)) (sched : Nat → Nat → Bool) :
    List (Nat × Task) :=
  let st := run_loop cfg sched 0 entries.enum (List.replicate process_count none) []
  drain_slots st.1 st.2

/-- The state of task number `i` after the run: its unique finalization
event, or (were it never admitted) the task unchanged. -/
def task_after_run (entries : List (Task × ProcResult)) (fin : List (Nat × Task))
    (i : Nat) : Task :=
  match fin.find? (fun p => p.1 = i) with
  | some p => p.2
  | none => (entries.getD i default).1

/-- The final loop of `run_tasks` (process.py lines 235-239): re-iterate the
tasks in their original order, appending each to `complete_tasks` or
`failed_tasks` according to `task.success`.  Tasks are tagged with their
original index (standing for Python object identity). -/
def run_tasks_result (cfg : RunConfig) (process_count : Nat)
    (entries : List (Task × ProcResult)) (sched : Nat → Nat → Bool) :
    List (Nat × Task) × List (Nat × Task) :=
  let fin := run_tasks_events cfg process_count entries sched
  let finals := (List.range entries.length).map
    (fun i => (i, task_after_run entries fin i))
  (finals.filter (fun p => p.2.success), finals.filter (fun p => !p.2.success))

/-! ## C3: the synthesized silent-crash diagnostic -/

/-- Numeric value of an uppercase hex digit. -/
def hexDigitVal (c : Char) : Nat :=
  if c ≤ '9' then c.toNat - '0'.toNat else c.toNat - 'A'.toNat + 10

/-- The number denoted by a string of uppercase hex digits. -/
def hexValue (l : List Char) : Nat :=
  l.foldl (fun a c => 16 * a + hexDigitVal c) 0

/-- Numeric value of a decimal digit string. -/
def decValue (l : List Char) : Nat :=
  l.foldl (fun a c => 10 * a + (c.toNat - '0'.toNat)) 0

theorem hexValue_append_digit (l : List Char) (c : Char) :
    hexValue (l ++ [c]) = 16 * hexValue l + hexDigitVal c := by
  unfold hexValue
  rw [List.foldl_append]
  rfl

theorem hexDigitVal_hexDigit {n : Nat} (h : n < 16) :
    hexDigitVal (hexDigit n) = n := by
  interval_cases n <;> decide

theorem hexValue_natHexAux : ∀ (fuel n : Nat), n < fuel →
    hexValue (natHexAux fuel n) = n
  | 0, n, h => absurd h (by omega)
  | fuel + 1, n, h => by
    rw [natHexAux]
    split_ifs with hn
    · show hexValue [hexDigit n] = n
      unfold hexValue
      simp [hexDigitVal_hexDigit hn]
    · have hlt : n / 16 < fuel := by
        have := Nat.div_lt_self (show 0 < n by omega) (show 1 < 16 by omega)
        omega
      rw [hexValue_append_digit, hexValue_natHexAux fuel (n / 16) hlt,
        hexDigitVal_hexDigit (Nat.mod_lt _ (by omega))]
      omega

theorem hexValue_natHex (n : Nat) : hexValue (natHex n) = n :=
  hexValue_natHexAux (n + 1) n (by omega)

theorem decValue_append_digit (l : List Char) (c : Char) :
    decValue (l ++ [c]) = 10 * decValue l + (c.toNat - '0'.toNat) := by
  unfold decValue
  rw [List.foldl_append]
  rfl

theorem decValue_natDecAux : ∀ (fuel n : Nat), n < fuel →
    decValue (natDecAux fuel n) = n
  | 0, n, h => absurd h (by omega)
  | fuel + 1, n, h => by
    rw [natDecAux]
    split_ifs with hn
    · have hv : (Char.ofNat ('0'.toNat + n)).toNat - '0'.toNat = n := by
        interval_cases n <;> decide
      show 10 * 0 + ((Char.ofNat ('0'.toNat + n)).toNat - '0'.toNat) = n
      omega
    · have hlt : n / 10 < fuel := by
        have := Nat.div_lt_self (show 0 < n by omega) (show 1 < 10 by omega)
        omega
      rw [decValue_append_digit, decValue_natDecAux fuel (n / 10) hlt]
      have h10 : n % 10 < 10 := Nat.mod_lt _ (by omega)
      have hv : (Char.ofNat ('0'.toNat + n % 10)).toNat - '0'.toNat = n % 10 := by
        interval_cases hnm : n % 10 <;> decide
      rw [hv]
      omega

theorem decValue_natDec (n : Nat) : decValue (natDec n) = n :=
  decValue_natDecAux (n + 1) n (by omega)

theorem natHexAux_length_le : ∀ (fuel k n : Nat), n < 16 ^ (k + 1) → n < fuel →
    (natHexAux fuel n).length ≤ k + 1
  | 0, _, n, _, hf => absurd hf (by omega)
  | fuel + 1, k, n, h, hf => by
    rw [natHexAux]
    split_ifs with hn
    · simp
    · cases k with
      | zero =>
        norm_num at h
        exact absurd h hn
      | succ k' =>
        have hd : n / 16 < 16 ^ (k' + 1) := by
          have h2 : n < 16 * 16 ^ (k' + 1) := by
            rw [← pow_succ']
            exact h
          exact Nat.div_lt_of_lt_mul h2
        have hflt : n / 16 < fuel := by
          have := Nat.div_lt_self (show 0 < n by omega) (show 1 < 16 by omega)
          omega
        have hr := natHexAux_length_le fuel k' (n / 16) hd hflt
        simp only [List.length_append, List.length_cons, List.length_nil]
        omega

theorem natHex_length_le (k n : Nat) (h : n < 16 ^ (k + 1)) :
    (natHex n).length ≤ k + 1 :=
  natHexAux_length_le (n + 1) k n h (by omega)

theorem pyMask32_lt (v : Int) : pyMask32 v < 4294967296 := by
  unfold pyMask32
  have h1 : v % 4294967296 < 4294967296 := Int.emod_lt_of_pos v (by norm_num)
  have h2 : 0 ≤ v % 4294967296 := Int.emod_nonneg v (by norm_num)
  omega

theorem uhex32_length (v : Int) : (uhex32 v).length = 8 := by
  unfold uhex32
  simp only [List.length_drop, List.length_append, List.length_replicate]
  omega

theorem hexValue_replicate_zero (j : Nat) (l : List Char) :
    hexValue (List.replicate j '0' ++ l) = hexValue l := by
  induction j with
  | zero => rfl
  | succ j ih =>
    show hexValue ('0' :: (List.replicate j '0' ++ l)) = hexValue l
    unfold hexValue at ih ⊢
    rw [List.foldl_cons]
    have h0 : 16 * 0 + hexDigitVal '0' = 0 := by decide
    rw [h0]
    exact ih

theorem uhex32_eq_padded (v : Int) :
    uhex32 v = List.replicate (8 - (natHex (pyMask32 v)).length) '0' ++
      natHex (pyMask32 v) := by
  have hlen : (natHex (pyMask32 v)).length ≤ 8 := by
    have hlt : pyMask32 v < 16 ^ 8 := by
      have := pyMask32_lt v
      norm_num
      omega
    exact natHex_length_le 7 (pyMask32 v) hlt
  unfold uhex32
  simp only [List.length_append, List.length_replicate]
  rw [show 8 + (natHex (pyMask32 v)).length - 8 = (natHex (pyMask32 v)).length by omega,
    List.drop_append_of_le_length (by simp; omega), List.drop_replicate]

/-- The eight hex digits of `uhex32` denote exactly `code mod 2^32`. -/
theorem hexValue_uhex32 (v : Int) : hexValue (uhex32 v) = pyMask32 v := by
  rw [uhex32_eq_padded, hexValue_replicate_zero, hexValue_natHex]

/-- C3: on a nonzero exit whose captured output has no `error` text (case
insensitively), finalization appends the synthesized diagnostic
`'\nERROR: Exit code <decimal> (0x<hex8>).'` — annotated
`' [Access Violation]'` exactly when the code masked to 32 bits equals
`0xc0000005` — where `<hex8>` is 8 characters long and denotes
`code mod 2^32`, and `<decimal>` is the decimal rendering of the code.
With a zero exit code, or with `error` text present, the output is recorded
unchanged. -/
theorem C3_silent_crash_diagnostic (res : ProcResult) (cmd_args : List (List Char))
    (task : Task) (h0 : task.success = false) :
    (res.code ≠ 0 → hasErrorWord (get_process_output res.stdout res.stderr) = false →
      (wait_and_update_task res cmd_args task).output =
        some (get_process_output res.stdout res.stderr ++
          (exitCodePrefix ++ intDec res.code ++ exitCodeMid ++ uhex32 res.code ++
            exitCodeSuffix ++
            (if pyMask32 res.code = 0xc0000005 then accessViolationChars else [])))) ∧
    (res.code = 0 →
      (wait_and_update_task res cmd_args task).output =
        some (get_process_output res.stdout res.stderr)) ∧
    (hasErrorWord (get_process_output res.stdout res.stderr) = true →
      (wait_and_update_task res cmd_args task).output =
        some (get_process_output res.stdout res.stderr)) ∧
    (uhex32 res.code).length = 8 ∧
    hexValue (uhex32 res.code) = pyMask32 res.code ∧
    pyMask32 res.code < 4294967296 ∧
    (0 ≤ res.code → decValue (intDec res.code) = res.code.toNat) := by
  refine ⟨?_, ?_, ?_, uhex32_length res.code, hexValue_uhex32 res.code,
    pyMask32_lt res.code, ?_⟩
  · intro hc he
    simp [wait_and_update_task, hc, h0, he, synthesizedDiagnostic]
  · intro hc
    simp [wait_and_update_task, hc]
  · intro he
    by_cases hc : res.code = 0
    · simp [wait_and_update_task, hc]
    · simp [wait_and_update_task, hc, h0, he]
  · intro hpos
    rw [intDec, if_neg (by omega)]
    exact decValue_natDec _

def crashStdout : List Char := "boom".data

/-- C3 (witness): a process exiting with code 3 and output `boom` gets the
synthesized diagnostic appended; `uhex32` of the code is 8 characters. -/
theorem C3_silent_crash_diagnostic_witness :
    (wait_and_update_task ⟨3, crashStdout, []⟩ [] (mkTask [] [] [] [] 0 [])).output =
      some (crashStdout ++ synthesizedDiagnostic 3) ∧
    (uhex32 3).length = 8 := by
  constructor
  · have h := (C3_silent_crash_diagnostic ⟨3, crashStdout, []⟩ [] (mkTask [] [] [] [] 0 [])
      rfl).1 (by decide) (by decide)
    exact h.trans (by decide)
  · exact (C3_silent_crash_diagnostic ⟨3, crashStdout, []⟩ [] (mkTask [] [] [] [] 0 [])
      rfl).2.2.2.1

/-! ## C4: scheduler bookkeeping lemmas -/

/-- What finalization does to one admitted entry. -/
def finalize_entry (cfg : RunConfig) (e : Nat × Task × ProcResult) : Nat × Task :=
  (e.1, wait_and_update_task e.2.2 (task_cmd_args cfg e.2.1) e.2.1)

theorem finalize_slot_eq (s : Option (Nat × Task × ProcResult × List (List Char)))
    (done : List (Nat × Task)) :
    finalize_slot s done = done ++ finalize_slot s [] := by
  cases s <;> simp [finalize_slot]

theorem drain_slots_eq (slots : Slots) :
    ∀ done, drain_slots slots done = done ++ drain_slots slots [] := by
  induction slots with
  | nil => intro done; simp [drain_slots]
  | cons s rest ih =>
    intro done
    show drain_slots rest (finalize_slot s done) =
      done ++ drain_slots rest (finalize_slot s [])
    rw [ih (finalize_slot s done), ih (finalize_slot s []), finalize_slot_eq]
    simp [List.append_assoc]

theorem drain_slots_cons (s : Option (Nat × Task × ProcResult × List (List Char)))
    (rest : Slots) :
    drain_slots (s :: rest) [] = finalize_slot s [] ++ drain_slots rest [] := by
  show drain_slots rest (finalize_slot s []) = _
  exact drain_slots_eq rest _

theorem drain_slots_append (l₁ l₂ : Slots) :
    drain_slots (l₁ ++ l₂) [] = drain_slots l₁ [] ++ drain_slots l₂ [] := by
  unfold drain_slots
  rw [List.foldl_append]
  exact drain_slots_eq l₂ (drain_slots l₁ [])

theorem drain_slots_replicate_none :
    ∀ n, drain_slots (List.replicate n none) ([] : List (Nat × Task)) = []
  | 0 => rfl
  | n + 1 => by
    rw [List.replicate_succ, drain_slots_cons]
    simpa [finalize_slot] using drain_slots_replicate_none n

theorem slots_decomp : ∀ (slots : Slots) (j : Nat), j < slots.length →
    slots = slots.take j ++ slots.getD j none :: slots.drop (j + 1) ∧
    ∀ v, slots.set j v = slots.take j ++ v :: slots.drop (j + 1)
  | [], j, h => absurd h (by simp)
  | s :: rest, 0, _ => ⟨rfl, fun _ => rfl⟩
  | s :: rest, j + 1, h => by
    have hr := slots_decomp rest j (by simpa using h)
    constructor
    · show s :: rest = s :: (rest.take j ++ rest.getD j none :: rest.drop (j + 1))
      rw [← hr.1]
    · intro v
      show s :: rest.set j v = s :: (rest.take j ++ v :: rest.drop (j + 1))
      rw [hr.2 v]

theorem wfa_lt (exited : Nat → Bool) (slots : Slots) (h : 0 < slots.length) :
    wait_for_available_process exited slots < slots.length := by
  unfold wait_for_available_process
  cases hf : (List.range slots.length).find?
      (fun i => (slots.getD i none).isNone || exited i) with
  | none => exact h
  | some j => exact List.mem_range.mp (List.mem_of_find?_eq_some hf)

/-- The multiset of finalization events a run produces: whatever was already
finalized or occupying slots, plus one finalization per admitted entry. -/
theorem run_loop_events_perm (cfg : RunConfig) (sched : Nat → Nat → Bool) :
    ∀ (l : List (Nat × Task × ProcResult)) (k : Nat) (slots : Slots)
      (done : List (Nat × Task)), 0 < slots.length →
      (drain_slots (run_loop cfg sched k l slots done).1
        (run_loop cfg sched k l slots done).2).Perm
      (drain_slots slots done ++ l.map (finalize_entry cfg)) := by
  intro l
  induction l with
  | nil =>
    intro k slots done _
    simp [run_loop]
  | cons e rest ih =>
    intro k slots done h
    obtain ⟨i, t, res⟩ := e
    have hjlt : wait_for_available_process (sched k) slots < slots.length :=
      wfa_lt (sched k) slots h
    set j := wait_for_available_process (sched k) slots with hjdef
    set new := (some (i, t, res, task_cmd_args cfg t) :
      Option (Nat × Task × ProcResult × List (List Char))) with hnewdef
    have hstep : run_loop cfg sched k ((i, t, res) :: rest) slots done =
        run_loop cfg sched (k + 1) rest (slots.set j new)
          (finalize_slot (slots.getD j none) done) := rfl
    rw [hstep]
    have hpos : 0 < (slots.set j new).length := by
      rw [List.length_set]
      exact h
    refine (ih (k + 1) (slots.set j new) (finalize_slot (slots.getD j none) done)
      hpos).trans ?_
    obtain ⟨hdec, hset⟩ := slots_decomp slots j hjlt
    set T := slots.take j
    set D := slots.drop (j + 1)
    set sj := slots.getD j none
    rw [hset new]
    conv_rhs => rw [hdec]
    rw [drain_slots_eq (T ++ new :: D), drain_slots_append, drain_slots_cons,
      drain_slots_eq (T ++ sj :: D), drain_slots_append, drain_slots_cons,
      finalize_slot_eq sj done]
    show (done ++ finalize_slot sj [] ++
        (drain_slots T [] ++ ([finalize_entry cfg (i, t, res)] ++ drain_slots D [])) ++
        rest.map (finalize_entry cfg)).Perm
      (done ++ (drain_slots T [] ++ (finalize_slot sj [] ++ drain_slots D [])) ++
        (finalize_entry cfg (i, t, res) :: rest.map (finalize_entry cfg)))
    apply Multiset.coe_eq_coe.mp
    have hcons : finalize_entry cfg (i, t, res) :: rest.map (finalize_entry cfg) =
        [finalize_entry cfg (i, t, res)] ++ rest.map (finalize_entry cfg) := rfl
    rw [hcons]
    simp only [← Multiset.coe_add]
    abel

/-- The events of a full run are exactly one finalization per input entry. -/
theorem run_tasks_events_perm (cfg : RunConfig) (process_count : Nat)
    (entries : List (Task × ProcResult)) (sched : Nat → Nat → Bool)
    (h : 0 < process_count) :
    (run_tasks_events cfg process_count entries sched).Perm
      (entries.enum.map (finalize_entry cfg)) := by
  unfold run_tasks_events
  have hperm := run_loop_events_perm cfg sched entries.enum 0
    (List.replicate process_count none) [] (by simpa using h)
  rwa [drain_slots_replicate_none, List.nil_append] at hperm

/-- A freshly parsed task is finalized successful iff its exit code is 0. -/
theorem wait_success_iff {res : ProcResult} {ca : List (List Char)} {t0 : Task}
    (h : t0.success = false) :
    ((wait_and_update_task res ca t0).success = true ↔ res.code = 0) := by
  simp only [wait_and_update_task]
  by_cases hc : res.code = 0 <;> simp [hc, h] <;> split_ifs <;> simp [h, hc]

theorem find?_eq_of_mem_nodup {fin : List (Nat × Task)}
    (hnd : (fin.map Prod.fst).Nodup) {i : Nat} {t : Task} (hm : (i, t) ∈ fin) :
    fin.find? (fun p => p.1 = i) = some (i, t) := by
  induction fin with
  | nil => simp at hm
  | cons e rest ih =>
    obtain ⟨j, s⟩ := e
    rw [List.map_cons, List.nodup_cons] at hnd
    by_cases hj : j = i
    · subst hj
      have hfind : ((j, s) :: rest).find? (fun p => p.1 = j) = some (j, s) := by
        simp [List.find?]
      rw [hfind]
      rcases List.mem_cons.mp hm with he | he
      · rw [he]
      · exact absurd (List.mem_map_of_mem Prod.fst he) hnd.1
    · have hfind : ((j, s) :: rest).find? (fun p => p.1 = i) =
          rest.find? (fun p => p.1 = i) := by
        simp [List.find?, hj]
      rw [hfind]
      rcases List.mem_cons.mp hm with he | he
      · exact absurd (congrArg Prod.fst he).symm hj
      · exact ih hnd.2 he

/-- C4: with at least one pool slot and freshly parsed tasks, every input
task is finalized exactly once; a task is finalized successful iff its
process exited with code 0; and the complete/failed lists returned by the
run are disjoint and together exactly cover the input set. -/
theorem C4_run_partition (cfg : RunConfig) (process_count : Nat)
    (entries : List (Task × ProcResult)) (sched : Nat → Nat → Bool)
    (hc : 0 < process_count)
    (hinit : ∀ e ∈ entries, e.1.success = false) :
    ((run_tasks_events cfg process_count entries sched).map Prod.fst).Perm
      (List.range entries.length) ∧
    (∀ i t, (i, t) ∈ run_tasks_events cfg process_count entries sched →
      ∃ e, entries[i]? = some e ∧
        t = wait_and_update_task e.2 (task_cmd_args cfg e.1) e.1 ∧
        (t.success = true ↔ e.2.code = 0)) ∧
    (∀ i, i < entries.length →
      ((∃ t, (i, t) ∈ (run_tasks_result cfg process_count entries sched).1) ↔
        ∃ e, entries[i]? = some e ∧ e.2.code = 0) ∧
      ((∃ t, (i, t) ∈ (run_tasks_result cfg process_count entries sched).2) ↔
        ∃ e, entries[i]? = some e ∧ e.2.code ≠ 0)) ∧
    (∀ i, ¬ ((∃ t, (i, t) ∈ (run_tasks_result cfg process_count entries sched).1) ∧
        (∃ t, (i, t) ∈ (run_tasks_result cfg process_count entries sched).2))) ∧
    (((run_tasks_result cfg process_count entries sched).1.map Prod.fst ++
      (run_tasks_result cfg process_count entries sched).2.map Prod.fst).Perm
      (List.range entries.length)) := by
  have hperm := run_tasks_events_perm cfg process_count entries sched hc
  set fin := run_tasks_events cfg process_count entries sched with hfindef
  have hmapfst : (entries.enum.map (finalize_entry cfg)).map Prod.fst =
      List.range entries.length := by
    rw [List.map_map]
    have hcomp : (Prod.fst ∘ finalize_entry cfg) =
        (Prod.fst : Nat × Task × ProcResult → Nat) := by
      funext p; rfl
    rw [hcomp, List.enum_map_fst]
  have ha : (fin.map Prod.fst).Perm (List.range entries.length) := by
    refine (hperm.map Prod.fst).trans ?_
    rw [hmapfst]
  have hb : ∀ i t, (i, t) ∈ fin → ∃ e, entries[i]? = some e ∧
      t = wait_and_update_task e.2 (task_cmd_args cfg e.1) e.1 ∧
      (t.success = true ↔ e.2.code = 0) := by
    intro i t hm
    have hm2 : (i, t) ∈ entries.enum.map (finalize_entry cfg) :=
      hperm.mem_iff.mp hm
    obtain ⟨p, hp, hfp⟩ := List.mem_map.mp hm2
    obtain ⟨i', e⟩ := p
    have h1 : i' = i := congrArg Prod.fst hfp
    subst h1
    have h2 : wait_and_update_task e.2 (task_cmd_args cfg e.1) e.1 = t :=
      congrArg Prod.snd hfp
    have he : entries[i']? = some e := List.mem_enum_iff_getElem?.mp hp
    refine ⟨e, he, h2.symm, ?_⟩
    rw [← h2]
    exact wait_success_iff (hinit e (List.getElem?_mem he))
  have hnd : (fin.map Prod.fst).Nodup := ha.nodup_iff.mpr (List.nodup_range _)
  have htar : ∀ i t, (i, t) ∈ fin → task_after_run entries fin i = t := by
    intro i t hm
    unfold task_after_run
    rw [find?_eq_of_mem_nodup hnd hm]
  have hex : ∀ i, i < entries.length → ∃ t, (i, t) ∈ fin := by
    intro i hi
    have hmem : i ∈ fin.map Prod.fst := ha.mem_iff.mpr (List.mem_range.mpr hi)
    obtain ⟨p, hp, hfst⟩ := List.mem_map.mp hmem
    exact ⟨p.2, by rw [← hfst]; simpa using hp⟩
  have hres1 : ∀ i, (∃ t, (i, t) ∈ (run_tasks_result cfg process_count entries sched).1) ↔
      (i < entries.length ∧ (task_after_run entries fin i).success = true) := by
    intro i
    constructor
    · rintro ⟨t, hm⟩
      rw [run_tasks_result] at hm
      rw [List.mem_filter] at hm
      obtain ⟨hmm, hsucc⟩ := hm
      obtain ⟨j, hj, he⟩ := List.mem_map.mp hmm
      have hji : j = i := congrArg Prod.fst he
      subst hji
      have hte : task_after_run entries fin j = t := congrArg Prod.snd he
      exact ⟨List.mem_range.mp hj, by rw [hte]; simpa [← hte] using hsucc⟩
    · rintro ⟨hi, hsucc⟩
      refine ⟨task_after_run entries fin i, ?_⟩
      rw [run_tasks_result]
      rw [List.mem_filter]
      exact ⟨List.mem_map_of_mem _ (List.mem_range.mpr hi), by simpa using hsucc⟩
  have hres2 : ∀ i, (∃ t, (i, t) ∈ (run_tasks_result cfg process_count entries sched).2) ↔
      (i < entries.length ∧ (task_after_run entries fin i).success = false) := by
    intro i
    constructor
    · rintro ⟨t, hm⟩
      rw [run_tasks_result] at hm
      rw [List.mem_filter] at hm
      obtain ⟨hmm, hsucc⟩ := hm
      obtain ⟨j, hj, he⟩ := List.mem_map.mp hmm
      have hji : j = i := congrArg Prod.fst he
      subst hji
      have hte : task_after_run entries fin j = t := congrArg Prod.snd he
      refine ⟨List.mem_range.mp hj, ?_⟩
      rw [hte]
      simpa using hsucc
    · rintro ⟨hi, hsucc⟩
      refine ⟨task_after_run entries fin i, ?_⟩
      rw [run_tasks_result]
      rw [List.mem_filter]
      exact ⟨List.mem_map_of_mem _ (List.mem_range.mpr hi), by simpa using hsucc⟩
  have hchar : ∀ i, i < entries.length →
      ((task_after_run entries fin i).success = true ↔
        ∃ e, entries[i]? = some e ∧ e.2.code = 0) := by
    intro i hi
    obtain ⟨t, hm⟩ := hex i hi
    obtain ⟨e, he, -, hsucc⟩ := hb i t hm
    rw [htar i t hm]
    constructor
    · intro hs
      exact ⟨e, he, hsucc.mp hs⟩
    · rintro ⟨e', he', hcode⟩
      rw [he] at he'
      obtain rfl := Option.some.inj he'
      exact hsucc.mpr hcode
  refine ⟨ha, hb, ?_, ?_, ?_⟩
  · intro i hi
    constructor
    · rw [hres1 i]
      constructor
      · rintro ⟨-, hs⟩
        exact (hchar i hi).mp hs
      · intro hcode
        exact ⟨hi, (hchar i hi).mpr hcode⟩
    · rw [hres2 i]
      obtain ⟨t, hm⟩ := hex i hi
      obtain ⟨e, he, -, -⟩ := hb i t hm
      constructor
      · rintro ⟨-, hs⟩
        refine ⟨e, he, ?_⟩
        intro hcode
        have := (hchar i hi).mpr ⟨e, he, hcode⟩
        rw [this] at hs
        exact absurd hs (by simp)
      · rintro ⟨e', he', hcode⟩
        rw [he] at he'
        obtain rfl := Option.some.inj he'
        refine ⟨hi, ?_⟩
        cases hcase : (task_after_run entries fin i).success
        · rfl
        · exact absurd ((hchar i hi).mp hcase) (fun ⟨e'', he'', hc''⟩ => by
            rw [he] at he''
            obtain rfl := Option.some.inj he''
            exact hcode hc'')
  · intro i
    rintro ⟨hin1, hin2⟩
    rw [hres1 i] at hin1
    rw [hres2 i] at hin2
    rw [hin1.2] at hin2
    exact absurd hin2.2 (by decide)
  · have hpart := List.filter_append_perm (fun p => p.2.success)
      ((List.range entries.length).map (fun i => (i, task_after_run entries fin i)))
    have hmap := hpart.map (Prod.fst : Nat × Task → Nat)
    rw [List.map_append] at hmap
    have hfst : ((List.range entries.length).map
        (fun i => (i, task_after_run entries fin i))).map Prod.fst =
        List.range entries.length := by
      rw [List.map_map]
      have hid : (Prod.fst ∘ fun i => (i, task_after_run entries fin i)) = id := by
        funext j
        rfl
      rw [hid, List.map_id]
    rw [hfst] at hmap
    exact hmap

def wCfg : RunConfig := ⟨"ufg".data, [], ".usda".data, "in".data, "out".data⟩
def wTask1 : Task := mkTask ("a".data) ("a.gltf".data) ("a".data) [] 0 ("s".data)
def wTask2 : Task := mkTask ("b".data) ("b.gltf".data) ("b".data) [] 0 ("s".data)
def wEntries : List (Task × ProcResult) := [(wTask1, ⟨0, [], []⟩), (wTask2, ⟨1, [], []⟩)]

/-- C4 (witness): a concrete 2-task run on one slot in which one task exits
0 and the other exits 1. -/
theorem C4_run_partition_witness :
    ((run_tasks_events wCfg 1 wEntries (fun _ _ => true)).map Prod.fst).Perm
      (List.range 2) ∧
    ¬ ((∃ t, (0, t) ∈ (run_tasks_result wCfg 1 wEntries (fun _ _ => true)).1) ∧
       (∃ t, (0, t) ∈ (run_tasks_result wCfg 1 wEntries (fun _ _ => true)).2)) := by
  have h := C4_run_partition wCfg 1 wEntries (fun _ _ => true) (by decide) (by decide)
  exact ⟨h.1, h.2.2.2.1 0⟩

/-! ## C9: the `--nousage` flag and the recorded command -/

theorem gpcAux_append (x : List Char) :
    ∀ (args : List (List Char)) (i : Nat),
      gpcAux i (args ++ [x]) =
        gpcAux i args ++ (if i = 0 ∧ args = [] then [] else [' ']) ++ quoteArg x := by
  intro args
  induction args with
  | nil =>
    intro i
    by_cases hi : i = 0
    · subst hi
      simp [gpcAux]
    · simp [gpcAux, hi, Nat.pos_of_ne_zero hi]
  | cons a t ih =>
    intro i
    show (if i > 0 then [' '] else []) ++ quoteArg a ++ gpcAux (i + 1) (t ++ [x]) = _
    rw [ih (i + 1)]
    show _ = (if i > 0 then [' '] else []) ++ quoteArg a ++ gpcAux (i + 1) t ++
      (if i = 0 ∧ a :: t = [] then [] else [' ']) ++ quoteArg x
    simp [List.append_assoc]

/-- C9: for every task the scheduler runs, the spawned argument list is
`task_cmd_args ++ [--nousage]`, which always ends in `--nousage`; the task's
recorded command (`task.command`, set by finalization) is built from
`task_cmd_args` without that flag; and the logged command text is a strict
prefix of the executed command text (it is the executed text minus
` --nousage`). -/
theorem C9_nousage_logged_prefix (cfg : RunConfig) (task : Task)
    (res : ProcResult) (t0 : Task) :
    (task_cmd_args cfg task ++ [nousageChars]).getLast? = some nousageChars ∧
    (wait_and_update_task res (task_cmd_args cfg task) t0).command =
      some (get_process_command (task_cmd_args cfg task)) ∧
    get_process_command (task_cmd_args cfg task ++ [nousageChars]) =
      get_process_command (task_cmd_args cfg task) ++ ' ' :: nousageChars ∧
    (get_process_command (task_cmd_args cfg task)) <+:
      (get_process_command (task_cmd_args cfg task ++ [nousageChars])) ∧
    get_process_command (task_cmd_args cfg task) ≠
      get_process_command (task_cmd_args cfg task ++ [nousageChars]) := by
  have hne : task_cmd_args cfg task ≠ [] := by
    simp [task_cmd_args]
  have hq : quoteArg nousageChars = nousageChars := by decide
  have heq : get_process_command (task_cmd_args cfg task ++ [nousageChars]) =
      get_process_command (task_cmd_args cfg task) ++ ' ' :: nousageChars := by
    unfold get_process_command
    rw [gpcAux_append]
    simp [hne, hq]
  refine ⟨List.getLast?_concat _, ?_, heq, ?_, ?_⟩
  · simp only [wait_and_update_task]
    split_ifs <;> rfl
  · rw [heq]
    exact List.prefix_append ..
  · intro hcontra
    have hlen := congrArg List.length (hcontra.trans heq)
    simp at hlen

/-! ## `diff.py`: tolerant archive comparison (C1) -/

/-- `|a - b|` on pixel values. -/
def natAbsDiff (a b : Nat) : Nat :=
  max a b - min a b

/-- A decoded image, as PIL exposes it to this code: a list of colour
channels, each a list of pixel values in 0..255. -/
abbrev PImage := List (List Nat)

/-- The 256-bucket histogram of one channel of
`ImageChops.difference(g, t)`: bucket `i` counts the pixels whose absolute
difference is `i`. -/
def channelHistogram (pairs : List (Nat × Nat)) : List Nat :=
  (List.range 256).map (fun i => pairs.countP (fun p => natAbsDiff p.1 p.2 = i))

/-- `ImageChops.difference(g_image, t_image).histogram()`: the per-channel
difference histograms, concatenated. -/
def imageDiffHistogram (g t : PImage) : List Nat :=
  (List.zip g t).flatMap (fun c => channelHistogram (List.zip c.1 c.2))

/-- `histogram_channels` (diff.py lines 68-71): slices of size 256.  The
fuel (initially the list length, an upper bound on the number of slices)
keeps the recursion structural. -/
def histogramChannelsAux : Nat → List Nat → List (List Nat)
  | 0, _ => []
  | _, [] => []
  | fuel + 1, h => h.take 256 :: histogramChannelsAux fuel (h.drop 256)

def histogram_channels (h : List Nat) : List (List Nat) :=
  histogramChannelsAux h.length h

/-- `max_histogram_bucket` (diff.py lines 74-76): max index of all non-zero
buckets.  (Python `max` of an empty list raises; an all-zero histogram,
impossible for a nonempty channel, is modelled as 0.) -/
def max_histogram_bucket (histogram : List Nat) : Nat :=
  ((histogram.enum.filter (fun p => p.2 ≠ 0)).map Prod.fst).foldl Nat.max 0

/-- `compare_images` (diff.py lines 79-99): true iff the largest per-pixel
per-channel absolute difference is at most `threshold`. -/
def compare_images (golden test : PImage) (threshold : Nat) : Bool :=
  let histogram := imageDiffHistogram golden test
  let max_buckets := (histogram_channels histogram).map max_histogram_bucket
  max_buckets.foldl Nat.max 0 ≤ threshold

/-- One archive entry: its `ZipInfo` header fields plus its decoded payload
(`none` when `Image.open` on the entry's bytes raises, i.e. the entry is not
an image). -/
structure ZipEntry where
  filename : List Char
  file_size : Nat
  crc : Nat
  image : Option PImage
deriving DecidableEq

/-- `handle_crc_difference` (diff.py lines 102-110): compare the two
entries as images with the default threshold 3; non-images always return
false (the `IOError` path). -/
def handle_crc_difference (golden test : ZipEntry) : Bool :=
  match golden.image, test.image with
  | some gi, some ti => compare_images gi ti 3
  | _, _ => false

/-- The entry loop of `compare_usdz_content` (diff.py lines 121-129).
Note the early `return`: the first entry whose CRC differs decides the
whole comparison, and later entries are never examined. -/
def compare_usdz_loop : List ZipEntry → List ZipEntry → Bool
  | [], _ => true
  | _, [] => true
  | g :: gs, t :: ts =>
    if t.filename ≠ g.filename then false
    else if t.file_size ≠ g.file_size then false
    else if t.crc ≠ g.crc then handle_crc_difference g t
    else compare_usdz_loop gs ts

/-- `compare_usdz_content` (diff.py lines 113-131), on the two archives'
entry lists. -/
def compare_usdz_content (golden test : List ZipEntry) : Bool :=
  if golden.length ≠ test.length then false
  else compare_usdz_loop golden test

/-- Modelled from the spec (the claim's reading of `compare_usdz_content`):
(a) same entry count, (b) names match positionally, (c) sizes match, and
(d) EVERY entry whose CRC differs decodes as an image within the tolerance. -/
def specUsdzMatch (golden test : List ZipEntry) : Bool :=
  (golden.length = test.length) &&
  (List.zip golden test).all (fun p =>
    (p.2.filename = p.1.filename) && (p.2.file_size = p.1.file_size) &&
    ((p.2.crc = p.1.crc) || handle_crc_difference p.1 p.2))

def usdzGoldenEntries : List ZipEntry :=
  [⟨"a.png".data, 10, 1, some [[0, 1]]⟩, ⟨"b.bin".data, 4, 7, none⟩]

def usdzTestEntries : List ZipEntry :=
  [⟨"a.png".data, 10, 2, some [[0, 2]]⟩, ⟨"b.bin".data, 4, 8, none⟩]

set_option maxRecDepth 4000 in
/-- C1: `compare_usdz_content` returns from inside its loop at the first
CRC-differing entry, so later entries are never checked — contradicting its
own docstring ("Returns true if usdz content matches") and the claimed
"for every entry" condition.  Here entry 0's CRC differs but its images
agree within tolerance, while entry 1's CRC also differs and is not an
image: the code answers `true`, the claimed condition is `false`. -/
theorem C1_first_crc_difference_decides :
    compare_usdz_content usdzGoldenEntries usdzTestEntries = true ∧
    specUsdzMatch usdzGoldenEntries usdzTestEntries = false := by
  decide

/-! ## `diff.py`: directory tree diff (C7) -/

/-- File contents as the diff engine distinguishes them: raw bytes, or a
parsed archive for `.usdz` files.  `filecmp` byte equality is modelled by
equality of this value. -/
inductive Content where
  | bytes (data : List Nat)
  | zip (entries : List ZipEntry)
deriving DecidableEq

/-- One file of a directory tree: its directory path (relative to the walk
root, which for the claim is also the reporting root), its name, and its
content. -/
structure FSFile where
  dir : List Char
  name : List Char
  content : Content
deriving DecidableEq

/-- `os.path.splitext(name)[1] == '.usdz'`: the name ends in `.usdz` and
that dot is not one of the basename's leading dots. -/
def hasUsdzExt (name : List Char) : Bool :=
  (".usdz".data.isSuffixOf name) &&
  (name.take (name.length - 5)).any (fun c => !(c = '.'))

/-- The archive override applied to a byte-level mismatch of two `.usdz`
files (a non-archive payload cannot satisfy it). -/
def usdzPass (gc tc : Content) : Bool :=
  match gc, tc with
  | .zip g, .zip t => compare_usdz_content g t
  | _, _ => false

/-- The directories `os.walk` visits, in first-occurrence order. -/
def dirsOf (fs : List FSFile) : List (List Char) :=
  (fs.map (fun f => f.dir)).dedup

/-- The keys (relative directory, file name) of a tree; a real directory
tree never repeats one. -/
def fsKeys (fs : List FSFile) : List (List Char × List Char) :=
  fs.map (fun f => (f.dir, f.name))

/-- Looking a file up on the opposite side of the comparison (what
`filecmp.cmpfiles` does for each name of `file_list`; `none` is the
"error" outcome: the file is absent). -/
def lookupFS (fs : List FSFile) (d name : List Char) : Option Content :=
  (fs.find? (fun f => f.dir = d ∧ f.name = name)).map (fun f => f.content)

/-- One `os.walk` pass over `base`, classifying each of its files by `pick`
applied to the file and the corresponding lookup on `other`, and reporting
the (relative directory, name) pairs selected. -/
def walkClassify (base other : List FSFile)
    (pick : FSFile → Option Content → Bool) : List (List Char × List Char) :=
  (dirsOf base).flatMap (fun d =>
    (base.filter (fun f => f.dir = d)).filterMap (fun f =>
      if pick f (lookupFS other d f.name) then some (d, f.name) else none))

/-- `cmpfiles` match: present on both sides with equal bytes. -/
def pickMatch (f : FSFile) : Option Content → Bool
  | some tc => f.content = tc
  | none => false

/-- Reported mismatch (diff.py lines 161-170): present on both sides,
bytes differ, and not a tolerably-different `.usdz` archive (those are
dropped from every list). -/
def pickMismatch (f : FSFile) : Option Content → Bool
  | some tc => !(f.content = tc) && !(hasUsdzExt f.name && usdzPass f.content tc)
  | none => false

/-- `cmpfiles` error on the golden walk (missing), and on the test walk
(extra): the opposite side has no such file. -/
def pickAbsent (_ : FSFile) : Option Content → Bool
  | some _ => false
  | none => true

structure DiffResult where
  all_matches : List (List Char × List Char)
  all_mismatches : List (List Char × List Char)
  all_missings : List (List Char × List Char)
  all_extras : List (List Char × List Char)

/-- `get_diffs` (diff.py lines 134-185), with the reporting root equal to
the golden base: walk the golden tree classifying every file as match,
mismatch or missing; walk the test tree classifying files absent from the
golden tree as extra. -/
def get_diffs (gold test : List FSFile) : DiffResult where
  all_matches := walkClassify gold test pickMatch
  all_mismatches := walkClassify gold test pickMismatch
  all_missings := walkClassify gold test pickAbsent
  all_extras := walkClassify test gold pickAbsent

theorem mem_walkClassify {base other : List FSFile}
    {pick : FSFile → Option Content → Bool} {p : List Char × List Char} :
    p ∈ walkClassify base other pick ↔
      ∃ f ∈ base, f.dir = p.1 ∧ f.name = p.2 ∧
        pick f (lookupFS other p.1 p.2) = true := by
  unfold walkClassify
  constructor
  · intro hm
    obtain ⟨d, _, hm2⟩ := List.mem_flatMap.mp hm
    obtain ⟨f, hf, he⟩ := List.mem_filterMap.mp hm2
    have hfb := (List.mem_filter.mp hf).1
    have hfd : f.dir = d := by
      have := (List.mem_filter.mp hf).2
      simpa using this
    by_cases hp : pick f (lookupFS other d f.name) = true
    · rw [if_pos hp] at he
      obtain rfl := Option.some.inj he
      exact ⟨f, hfb, hfd, rfl, hp⟩
    · rw [if_neg hp] at he
      exact absurd he (by simp)
  · rintro ⟨f, hfb, hd, hn, hpick⟩
    apply List.mem_flatMap.mpr
    refine ⟨p.1, ?_, ?_⟩
    · rw [dirsOf, List.mem_dedup]
      exact hd ▸ List.mem_map_of_mem _ hfb
    · apply List.mem_filterMap.mpr
      refine ⟨f, List.mem_filter.mpr ⟨hfb, by simp [hd]⟩, ?_⟩
      rw [hn, if_pos hpick]

theorem lookupFS_ne_none_of_mem {fs : List FSFile} {f : FSFile} (hf : f ∈ fs) :
    lookupFS fs f.dir f.name ≠ none := by
  unfold lookupFS
  intro hnone
  rw [Option.map_eq_none'] at hnone
  have := List.find?_eq_none.mp hnone f hf
  simp at this

/-- C7: `get_diffs` never classifies one relative path into more than one
of the four sets, given well-formed trees (no repeated (directory, name)
key on either side). -/
theorem C7_no_double_classification (gold test : List FSFile)
    (hg : (fsKeys gold).Nodup) (ht : (fsKeys test).Nodup) :
    (∀ p, p ∈ (get_diffs gold test).all_matches →
      p ∉ (get_diffs gold test).all_mismatches ∧
      p ∉ (get_diffs gold test).all_missings ∧
      p ∉ (get_diffs gold test).all_extras) ∧
    (∀ p, p ∈ (get_diffs gold test).all_mismatches →
      p ∉ (get_diffs gold test).all_missings ∧
      p ∉ (get_diffs gold test).all_extras) ∧
    (∀ p, p ∈ (get_diffs gold test).all_missings →
      p ∉ (get_diffs gold test).all_extras) := by
  have hinj := List.inj_on_of_nodup_map (f := fun f : FSFile => (f.dir, f.name)) hg
  have hgext : ∀ p : List Char × List Char,
      (∃ f ∈ gold, f.dir = p.1 ∧ f.name = p.2) →
      p ∉ (get_diffs gold test).all_extras := by
    rintro p ⟨f, hfb, hd, hn⟩ hm
    obtain ⟨f', _, hd', hn', hpick'⟩ := mem_walkClassify.mp hm
    have hlook : lookupFS gold p.1 p.2 ≠ none := by
      rw [← hd, ← hn]
      exact lookupFS_ne_none_of_mem hfb
    cases hcase : lookupFS gold p.1 p.2 with
    | none => exact hlook hcase
    | some c =>
      rw [hcase] at hpick'
      exact absurd hpick' (by simp [pickAbsent])
  refine ⟨?_, ?_, ?_⟩
  · intro p hmatch
    obtain ⟨f, hfb, hd, hn, hpick⟩ := mem_walkClassify.mp hmatch
    refine ⟨?_, ?_, hgext p ⟨f, hfb, hd, hn⟩⟩
    · intro hm
      obtain ⟨f', hfb', hd', hn', hpick'⟩ := mem_walkClassify.mp hm
      have hff : f = f' := hinj hfb hfb'
        (by show (f.dir, f.name) = (f'.dir, f'.name); rw [hd, hn, hd', hn'])
      subst hff
      cases hcase : lookupFS test p.1 p.2 with
      | none => rw [hcase] at hpick; exact absurd hpick (by simp [pickMatch])
      | some tc =>
        rw [hcase] at hpick hpick'
        simp [pickMatch] at hpick
        simp [pickMismatch, hpick] at hpick'
    · intro hm
      obtain ⟨f', _, hd', hn', hpick'⟩ := mem_walkClassify.mp hm
      cases hcase : lookupFS test p.1 p.2 with
      | none => rw [hcase] at hpick; exact absurd hpick (by simp [pickMatch])
      | some tc =>
        rw [hcase] at hpick'
        exact absurd hpick' (by simp [pickAbsent])
  · intro p hmm
    obtain ⟨f, hfb, hd, hn, hpick⟩ := mem_walkClassify.mp hmm
    refine ⟨?_, hgext p ⟨f, hfb, hd, hn⟩⟩
    intro hm
    obtain ⟨f', _, hd', hn', hpick'⟩ := mem_walkClassify.mp hm
    cases hcase : lookupFS test p.1 p.2 with
    | none => rw [hcase] at hpick; exact absurd hpick (by simp [pickMismatch])
    | some tc =>
      rw [hcase] at hpick'
      exact absurd hpick' (by simp [pickAbsent])
  · intro p hmiss
    obtain ⟨f, hfb, hd, hn, hpick⟩ := mem_walkClassify.mp hmiss
    exact hgext p ⟨f, hfb, hd, hn⟩

def wGoldTree : List FSFile :=
  [⟨[], "a.usda".data, .bytes [1, 2]⟩, ⟨"sub".data, "b.usda".data, .bytes [3]⟩,
   ⟨[], "only_gold.txt".data, .bytes [4]⟩]

def wTestTree : List FSFile :=
  [⟨[], "a.usda".data, .bytes [1, 2]⟩, ⟨"sub".data, "b.usda".data, .bytes [9]⟩,
   ⟨[], "only_test.txt".data, .bytes [5]⟩]

/-- C7 (witness): in a concrete pair of trees with a match, a mismatch, a
missing file and an extra file, the mismatching file `sub/b.usda` is in
neither the missing nor the extra set. -/
theorem C7_no_double_classification_witness :
    ("sub".data, "b.usda".data) ∉ (get_diffs wGoldTree wTestTree).all_missings ∧
    ("sub".data, "b.usda".data) ∉ (get_diffs wGoldTree wTestTree).all_extras :=
  (C7_no_double_classification wGoldTree wTestTree (by decide) (by decide)).2.1
    ("sub".data, "b.usda".data) (by decide)

/-! ## `ufgtest.py`: exit-status bitmask (C8) -/

/-- The exit-status computation at the end of `ufgtest.main` (lines
167-173): `err = 0; if failed_tasks: err |= 1;
if mismatch_total or missing_total or extra_total: err |= 2`. -/
def ufgtest_exit_code (failed_tasks : List Task)
    (mismatch_total missing_total extra_total : Nat) : Nat :=
  let err := 0
  let err := if failed_tasks ≠ [] then err ||| 1 else err
  let err := if mismatch_total ≠ 0 ∨ missing_total ≠ 0 ∨ extra_total ≠ 0
    then err ||| 2 else err
  err

/-- C8: the orchestrator's exit status is a bitmask of two independent
bits: bit 0 (value 1) is set iff some job failed, bit 1 (value 2) is set
iff the mismatch/missing/extra totals are nonzero; no failures and no
diffs give 0, and both conditions give 3. -/
theorem C8_exit_bitmask (failed_tasks : List Task) (mm ms ex : Nat) :
    ufgtest_exit_code failed_tasks mm ms ex =
      (if failed_tasks ≠ [] then 1 else 0) +
      (if mm ≠ 0 ∨ ms ≠ 0 ∨ ex ≠ 0 then 2 else 0) ∧
    ((ufgtest_exit_code failed_tasks mm ms ex).testBit 0 = true ↔
      failed_tasks ≠ []) ∧
    ((ufgtest_exit_code failed_tasks mm ms ex).testBit 1 = true ↔
      (mm ≠ 0 ∨ ms ≠ 0 ∨ ex ≠ 0)) ∧
    (failed_tasks = [] → mm = 0 → ms = 0 → ex = 0 →
      ufgtest_exit_code failed_tasks mm ms ex = 0) ∧
    (failed_tasks ≠ [] → (mm ≠ 0 ∨ ms ≠ 0 ∨ ex ≠ 0) →
      ufgtest_exit_code failed_tasks mm ms ex = 3) := by
  unfold ufgtest_exit_code
  by_cases h1 : failed_tasks ≠ [] <;>
    by_cases h2 : mm ≠ 0 ∨ ms ≠ 0 ∨ ex ≠ 0 <;>
    simp [h1, h2]
  all_goals
    first
    | decide
    | (refine ⟨by decide, ?_⟩
       intro _ hmm hms hex
       rcases h2 with h | h | h
       · exact h hmm
       · exact h hms
       · exact h hex)

/-- C8 (witness): no failures and no diffs exit 0; one failed task plus a
nonzero mismatch total exit 3 (both bits). -/
theorem C8_exit_bitmask_witness :
    ufgtest_exit_code [] 0 0 0 = 0 ∧
    ufgtest_exit_code [mkTask ("t".data) [] [] [] 0 []] 1 0 0 = 3 := by
  constructor
  · exact (C8_exit_bitmask [] 0 0 0).2.2.2.1 rfl rfl rfl rfl
  · exact (C8_exit_bitmask [mkTask ("t".data) [] [] [] 0 []] 1 0 0).2.2.2.2
      (by simp) (by simp)

end UFG
